import Mathlib

/-!
Verification development for the ccsess2mdbook conversion engine.

The TypeScript sources (src/types.ts, src/converter.ts, src/renderer.ts,
src/main.ts) are shallowly embedded below: each TS function is translated
to a Lean definition of the same name, with mutable loop state made
explicit (fold/step functions over state records).  JS strings are
modelled as Lean `String`; JS string truthiness (empty string is falsy)
is modelled explicitly where the source relies on it.
-/

namespace CCSess

/-! ## Data model (src/types.ts) -/

structure ToolUseBlock where
  id : String
  name : String
  /- `input : Record<string, unknown>`: unknown values are modelled as
     strings; none of the verified components inspect them. -/
  input : List (String × String)
  deriving DecidableEq, Repr

structure ToolResultContent where
  text : String
  deriving DecidableEq, Repr

inductive ToolResultBody where
  | str (s : String)
  | arr (items : List ToolResultContent)
  deriving DecidableEq, Repr

structure ToolResultBlock where
  tool_use_id : String
  content : ToolResultBody
  is_error : Option Bool
  deriving DecidableEq, Repr

inductive ContentBlock where
  | text (text : String)
  | thinking (thinking : String)
  | toolUse (block : ToolUseBlock)
  | toolResult (block : ToolResultBlock)
  deriving DecidableEq, Repr

/-- `string | ContentBlock[]` content of a user message. -/
inductive UserContent where
  | str (s : String)
  | blocks (bs : List ContentBlock)
  deriving DecidableEq, Repr

/- The TS records nest the payload under `message: { role, content }`;
   the constant `role` field is omitted and `content` is lifted to the
   top level of the structure. -/

structure UserMessage where
  uuid : String
  parentUuid : String
  sessionId : String
  timestamp : String
  cwd : String
  content : UserContent
  deriving DecidableEq, Repr

structure AssistantMessage where
  uuid : String
  parentUuid : String
  sessionId : String
  timestamp : String
  cwd : String
  content : List ContentBlock
  model : Option String
  stop_reason : Option String
  deriving DecidableEq, Repr

structure FileHistorySnapshot where
  messageId : String
  /- `snapshot : unknown`, opaque to all verified components. -/
  snapshot : String
  deriving DecidableEq, Repr

structure SummaryEntry where
  summary : String
  leafUuid : String
  deriving DecidableEq, Repr

inductive SessionEntry where
  | user (m : UserMessage)
  | assistant (m : AssistantMessage)
  | snapshot (s : FileHistorySnapshot)
  | summary (s : SummaryEntry)
  deriving DecidableEq, Repr

inductive TurnMessage where
  | user (m : UserMessage)
  | assistant (m : AssistantMessage)
  deriving DecidableEq, Repr

structure ConversationTurn where
  index : Nat
  messages : List TurnMessage
  deriving DecidableEq, Repr

/-! ## Turn segmenter (src/converter.ts) -/

/-- `isUserMessage` / `isAssistantMessage` filter of `extractConversationTurns`:
keep only user and assistant entries, as `TurnMessage`s. -/
def toTurnMessage : SessionEntry → Option TurnMessage
  | .user m => some (.user m)
  | .assistant m => some (.assistant m)
  | .snapshot _ => none
  | .summary _ => none

/-- Whitespace in the sense of the JS `String.prototype.trim`: space,
tab, line feed, vertical tab, form feed, carriage return, NBSP and the
Unicode space/line separators trimmed by ECMAScript. -/
def isJsWhitespace (c : Char) : Bool :=
  c = ' ' || c = '\t' || c = '\n' || c = '\u000B' || c = '\u000C' || c = '\r' ||
    c = '\u00A0' || c = '\u1680' || c = '\u2000' || c = '\u2001' || c = '\u2002' ||
    c = '\u2003' || c = '\u2004' || c = '\u2005' || c = '\u2006' || c = '\u2007' ||
    c = '\u2008' || c = '\u2009' || c = '\u200A' || c = '\u2028' || c = '\u2029' ||
    c = '\u202F' || c = '\u205F' || c = '\u3000' || c = '\uFEFF'

/-- JS `String.prototype.trim`, modelled over the character list. -/
def jsTrim (s : String) : String :=
  String.mk (((s.data.dropWhile isJsWhitespace).reverse.dropWhile isJsWhitespace).reverse)

/-- `userMessageHasText` (src/converter.ts): a string content has text iff it
trims to non-empty; block content has text iff some block is a `text` block
whose text trims to non-empty. -/
def userMessageHasText (u : UserMessage) : Bool :=
  match u.content with
  | .str s => (jsTrim s).length > 0
  | .blocks bs =>
    bs.any fun b =>
      match b with
      | .text t => (jsTrim t).length > 0
      | _ => false

/-- Loop state of `extractConversationTurns`: emitted turns, the open turn
(`currentTurn`, nullable) and the 1-based `turnIndex` counter. -/
structure SegState where
  turns : List ConversationTurn
  current : Option ConversationTurn
  turnIndex : Nat
  deriving DecidableEq, Repr

/-- One iteration of the `for (const msg of messages)` loop of
`extractConversationTurns`. -/
def segStep (st : SegState) (msg : TurnMessage) : SegState :=
  match msg with
  | .user u =>
    if userMessageHasText u then
      { turns :=
          st.turns ++
            (match st.current with
             | some t => if t.messages.length > 0 then [t] else []
             | none => [])
        current := some { index := st.turnIndex, messages := [.user u] }
        turnIndex := st.turnIndex + 1 }
    else
      match st.current with
      | some t => { st with current := some { t with messages := t.messages ++ [.user u] } }
      | none => st
  | .assistant a =>
    match st.current with
    | some t => { st with current := some { t with messages := t.messages ++ [.assistant a] } }
    | none => st

/-- `extractConversationTurns` (src/converter.ts). -/
def extractConversationTurns (entries : List SessionEntry) : List ConversationTurn :=
  let messages := entries.filterMap toTurnMessage
  let final := messages.foldl segStep { turns := [], current := none, turnIndex := 1 }
  final.turns ++
    (match final.current with
     | some t => if t.messages.length > 0 then [t] else []
     | none => [])

/-! ## Page model (src/types.ts) -/

structure UserPage where
  turnIndex : Nat
  pageIndex : Nat
  user : UserMessage
  deriving DecidableEq, Repr

structure TextPage where
  turnIndex : Nat
  pageIndex : Nat
  assistant : AssistantMessage
  deriving DecidableEq, Repr

structure ToolInteraction where
  toolUse : AssistantMessage
  toolResults : List ToolResultBlock
  deriving DecidableEq, Repr

structure ToolPage where
  turnIndex : Nat
  pageIndex : Nat
  interactions : List ToolInteraction
  deriving DecidableEq, Repr

inductive Page where
  | user (p : UserPage)
  | text (p : TextPage)
  | tool (p : ToolPage)
  deriving DecidableEq, Repr

structure TurnPages where
  turnIndex : Nat
  title : String
  pages : List Page
  deriving DecidableEq, Repr

/-! ## Renderer core (src/renderer.ts) -/

/-- `getPageFilename` (src/renderer.ts). -/
def getPageFilename : Page → String
  | .user p => "turn_" ++ Nat.repr p.turnIndex ++ "_user.md"
  | .text p => "turn_" ++ Nat.repr p.turnIndex ++ "_text_" ++ Nat.repr p.pageIndex ++ ".md"
  | .tool p => "turn_" ++ Nat.repr p.turnIndex ++ "_tool_" ++ Nat.repr p.pageIndex ++ ".md"

/-- The `for (const block of content)` loop of `assistantStartsWithText`:
skip `thinking` blocks, test whether the first other block is `text`,
`false` if every block is a `thinking` block. -/
def firstNonThinkingIsText : List ContentBlock → Bool
  | [] => false
  | .thinking _ :: rest => firstNonThinkingIsText rest
  | .text _ :: _ => true
  | _ :: _ => false

/-- `assistantStartsWithText` (src/renderer.ts). -/
def assistantStartsWithText (a : AssistantMessage) : Bool :=
  if a.content.length = 0 then false
  else firstNonThinkingIsText a.content

/-- The `for (const block of content)` loop of `extractUserText`:
the text of the first `text` block, or the empty string. -/
def firstTextOfBlocks : List ContentBlock → String
  | [] => ""
  | .text t :: _ => t
  | _ :: rest => firstTextOfBlocks rest

/-- `extractUserText` (src/renderer.ts). -/
def extractUserText (u : UserMessage) : String :=
  match u.content with
  | .str s => s
  | .blocks bs => firstTextOfBlocks bs

/-- `extractToolResults` (src/renderer.ts): all `tool_result` blocks of a
user message; string content yields none. -/
def extractToolResults (u : UserMessage) : List ToolResultBlock :=
  match u.content with
  | .str _ => []
  | .blocks bs =>
    bs.filterMap fun b =>
      match b with
      | .toolResult r => some r
      | _ => none

/-- The `for (const msg of messages)` loop of `extractFirstUserText`. -/
def extractFirstUserText : List TurnMessage → String
  | [] => ""
  | .user u :: rest =>
    let t := extractUserText u
    if (jsTrim t).length > 0 then t else extractFirstUserText rest
  | .assistant _ :: rest => extractFirstUserText rest

/-- Characters stripped by `getTurnTitle`: `#`, `[`, `]`, backtick, `*`, `_`. -/
def isMdStructChar (c : Char) : Bool :=
  c = '#' || c = '[' || c = ']' || c = Char.ofNat 96 || c = '*' || c = '_'

/-- `getTurnTitle` (src/renderer.ts): newlines replaced by spaces, the
Markdown-structural characters removed, trimmed, cut to the first 50
characters (JS `slice` counts UTF-16 units; modelled as characters), with
fallback to `Turn N` when the result is empty (JS falsy string). -/
def getTurnTitle (turn : ConversationTurn) : String :=
  let userContent := extractFirstUserText turn.messages
  let cleaned :=
    (userContent.data.map fun c => if c = '\n' then ' ' else c).filter
      fun c => !isMdStructChar c
  let title := String.mk ((jsTrim (String.mk cleaned)).data.take 50)
  if title = "" then "Turn " ++ Nat.repr turn.index else title

/-- Loop state of `convertTurnsToPages` within one turn: the emitted pages,
the `pageIndex` counter, the open tool page and the open interaction. -/
structure PartState where
  pages : List Page
  pageIndex : Nat
  curToolPage : Option ToolPage
  curInteraction : Option ToolInteraction
  deriving DecidableEq, Repr

/-- `flushToolPage` closure of `convertTurnsToPages`: push the open
interaction into the open tool page, then push the tool page onto the
page list when it holds at least one interaction. -/
def flushToolPage (st : PartState) : PartState :=
  let st1 :=
    match st.curInteraction, st.curToolPage with
    | some i, some tp =>
      { st with
        curToolPage := some { tp with interactions := tp.interactions ++ [i] }
        curInteraction := none }
    | _, _ => st
  match st1.curToolPage with
  | some tp =>
    if tp.interactions.length > 0 then
      { st1 with pages := st1.pages ++ [.tool tp], curToolPage := none }
    else st1
  | none => st1

/-- One iteration of the `for (const msg of turn.messages)` loop of
`convertTurnsToPages` for the turn with index `turnIndex`. -/
def processMessage (turnIndex : Nat) (st : PartState) (msg : TurnMessage) : PartState :=
  match msg with
  | .user u =>
    if (jsTrim (extractUserText u)).length > 0 then
      let st' := flushToolPage st
      { st' with
        pages := st'.pages ++ [.user { turnIndex, pageIndex := st'.pageIndex, user := u }]
        pageIndex := st'.pageIndex + 1 }
    else
      match st.curInteraction with
      | some i =>
        { st with
          curInteraction :=
            some { i with toolResults := i.toolResults ++ extractToolResults u } }
      | none => st
  | .assistant a =>
    if assistantStartsWithText a then
      let st' := flushToolPage st
      { st' with
        pages := st'.pages ++ [.text { turnIndex, pageIndex := st'.pageIndex, assistant := a }]
        pageIndex := st'.pageIndex + 1 }
    else
      let st1 :=
        match st.curInteraction, st.curToolPage with
        | some i, some tp =>
          { st with curToolPage := some { tp with interactions := tp.interactions ++ [i] } }
        | _, _ => st
      let st2 :=
        match st1.curToolPage with
        | none =>
          { st1 with
            curToolPage := some { turnIndex, pageIndex := st1.pageIndex, interactions := [] }
            pageIndex := st1.pageIndex + 1 }
        | some _ => st1
      { st2 with curInteraction := some { toolUse := a, toolResults := [] } }

/-- Body of the `for (const turn of turns)` loop of `convertTurnsToPages`. -/
def convertTurn (turn : ConversationTurn) : TurnPages :=
  let final :=
    flushToolPage
      (turn.messages.foldl (processMessage turn.index)
        { pages := [], pageIndex := 1, curToolPage := none, curInteraction := none })
  { turnIndex := turn.index, title := getTurnTitle turn, pages := final.pages }

/-- `convertTurnsToPages` (src/renderer.ts). -/
def convertTurnsToPages (turns : List ConversationTurn) : List TurnPages :=
  turns.map convertTurn

/-- JS `Map.prototype.set` on an insertion-ordered association list:
an existing key keeps its position and gets the new value, a new key is
appended. -/
def mapSet (m : List (String × ToolUseBlock)) (k : String) (v : ToolUseBlock) :
    List (String × ToolUseBlock) :=
  if m.any (fun kv => kv.1 = k) then
    m.map fun kv => if kv.1 = k then (k, v) else kv
  else m ++ [(k, v)]

/-- `buildToolUseMap` (src/renderer.ts): nested loops over turns, messages
and content blocks, inserting every `tool_use` block by id. -/
def buildToolUseMap (turns : List ConversationTurn) : List (String × ToolUseBlock) :=
  turns.foldl
    (fun m turn =>
      turn.messages.foldl
        (fun m msg =>
          match msg with
          | .assistant a =>
            a.content.foldl
              (fun m b =>
                match b with
                | .toolUse tb => mapSet m tb.id tb
                | _ => m)
              m
          | .user _ => m)
        m)
    []

/-! ## Session merger (src/main.ts) -/

/-- `getEntryUuid` (src/main.ts): user/assistant records key by `uuid`,
snapshots by `messageId`, summaries have no key (`null`). -/
def getEntryUuid : SessionEntry → Option String
  | .user m => some m.uuid
  | .assistant m => some m.uuid
  | .snapshot s => some s.messageId
  | .summary _ => none

/-- JS truthiness of `getEntryUuid`'s result: `null` and the empty string
are falsy. -/
def uuidTruthy : Option String → Bool
  | none => false
  | some s => s ≠ ""

def isSummaryEntry : SessionEntry → Bool
  | .summary _ => true
  | _ => false

/-- `getFirstTimestamp` (src/main.ts): timestamp of the first user or
assistant record whose `timestamp` is truthy (non-empty). -/
def getFirstTimestamp : List SessionEntry → Option String
  | [] => none
  | .user m :: rest =>
    if m.timestamp ≠ "" then some m.timestamp else getFirstTimestamp rest
  | .assistant m :: rest =>
    if m.timestamp ≠ "" then some m.timestamp else getFirstTimestamp rest
  | _ :: rest => getFirstTimestamp rest

/-- The sort comparator of `loadAndMergeSessionFiles` (src/main.ts).
`localeCompare` is locale-dependent; it is modelled here as code-point
comparison.  Note the comparator returns `-1` for BOTH argument orders
when the two sources both lack a first timestamp, so it is not a
consistent comparator and ECMAScript leaves the resulting sort order
implementation-defined; no Lean model of the sort stage is therefore
committed to. -/
def compareSessions (a b : Option String) : Int :=
  match a with
  | none => -1
  | some ta =>
    match b with
    | none => 1
    | some tb => if ta < tb then -1 else if tb < ta then 1 else 0

/-- The merge loop of `loadAndMergeSessionFiles` (src/main.ts): walk the
entries of the (sorted) sources in order with one `seenUuids` set, drop
summary entries, drop entries whose truthy key was already seen, record
truthy keys. -/
def mergeRun (seen : List String) : List SessionEntry → List SessionEntry
  | [] => []
  | e :: rest =>
    if isSummaryEntry e then mergeRun seen rest
    else
      let uuid := getEntryUuid e
      if uuidTruthy uuid && seen.contains (uuid.getD "") then mergeRun seen rest
      else
        e :: mergeRun (if uuidTruthy uuid then uuid.getD "" :: seen else seen) rest

/-- The dedup/concatenation phase of `loadAndMergeSessionFiles` applied to
already-loaded sources: the nested source/entry loops are a single pass
over the concatenation of the sources in their (sorted) order. -/
def mergeLoadedSessions (sources : List (List SessionEntry)) : List SessionEntry :=
  mergeRun [] sources.flatten

/-! ## Properties of the turn segmenter -/

/-- A well-formed turn: its first message is a user record that passes
`userMessageHasText`, and every later user record in it fails it. -/
def goodTurn (t : ConversationTurn) : Prop :=
  ∃ u rest, t.messages = TurnMessage.user u :: rest ∧ userMessageHasText u = true ∧
    ∀ u', TurnMessage.user u' ∈ rest → userMessageHasText u' = false

/-- Invariant of the segmentation loop: emitted turns are numbered
`1, 2, …` in order and are well-formed; the open turn (when present)
carries the next number, and the counter is one past it. -/
def SegInv (st : SegState) : Prop :=
  st.turns.map ConversationTurn.index = List.range' 1 st.turns.length ∧
  (∀ t ∈ st.turns, goodTurn t) ∧
  ((st.current = none ∧ st.turnIndex = st.turns.length + 1) ∨
    (∃ t, st.current = some t ∧ t.index = st.turns.length + 1 ∧
      st.turnIndex = st.turns.length + 2 ∧ goodTurn t))

theorem goodTurn_messages_ne_nil {t : ConversationTurn} (h : goodTurn t) :
    t.messages.length > 0 := by
  obtain ⟨u, rest, hm, -, -⟩ := h
  simp [hm]

theorem goodTurn_append_assistant {t : ConversationTurn} (h : goodTurn t)
    (a : AssistantMessage) :
    goodTurn { t with messages := t.messages ++ [TurnMessage.assistant a] } := by
  obtain ⟨u, rest, hm, hu, hrest⟩ := h
  refine ⟨u, rest ++ [TurnMessage.assistant a], by simp [hm], hu, ?_⟩
  intro u' hu'
  rcases List.mem_append.1 hu' with h' | h'
  · exact hrest u' h'
  · simp at h'

theorem goodTurn_append_user {t : ConversationTurn} (h : goodTurn t)
    {u : UserMessage} (hu : userMessageHasText u = false) :
    goodTurn { t with messages := t.messages ++ [TurnMessage.user u] } := by
  obtain ⟨u₀, rest, hm, hu₀, hrest⟩ := h
  refine ⟨u₀, rest ++ [TurnMessage.user u], by simp [hm], hu₀, ?_⟩
  intro u' hu'
  rcases List.mem_append.1 hu' with h' | h'
  · exact hrest u' h'
  · simp at h'
    subst h'
    exact hu

theorem segStep_inv {st : SegState} (m : TurnMessage) (h : SegInv st) :
    SegInv (segStep st m) := by
  obtain ⟨hidx, hgood, hcur⟩ := h
  cases m with
  | user u =>
    by_cases hu : userMessageHasText u = true
    · rcases hcur with ⟨hc, hn⟩ | ⟨t, hc, hti, hn, hg⟩
      · have hstep : segStep st (.user u) =
            { turns := st.turns,
              current := some { index := st.turnIndex, messages := [.user u] },
              turnIndex := st.turnIndex + 1 } := by
          simp [segStep, hu, hc]
        rw [hstep]
        have hc2 : st.turnIndex + 1 = st.turns.length + 2 := by omega
        exact ⟨hidx, hgood, Or.inr ⟨_, rfl, hn, hc2, u, [], rfl, hu, by simp⟩⟩
      · have hlen := goodTurn_messages_ne_nil hg
        have hstep : segStep st (.user u) =
            { turns := st.turns ++ [t],
              current := some { index := st.turnIndex, messages := [.user u] },
              turnIndex := st.turnIndex + 1 } := by
          simp [segStep, hu, hc, hlen]
        rw [hstep]
        have hi2 : st.turnIndex = (st.turns ++ [t]).length + 1 := by
          simp
          omega
        have hc2 : st.turnIndex + 1 = (st.turns ++ [t]).length + 2 := by
          simp
          omega
        refine ⟨?_, ?_, Or.inr ⟨_, rfl, hi2, hc2, u, [], rfl, hu, by simp⟩⟩
        · simp [hidx, hti, List.range'_1_concat, Nat.add_comm]
        · intro t' ht'
          rcases List.mem_append.1 ht' with h' | h'
          · exact hgood t' h'
          · simp at h'
            subst h'
            exact hg
    · have hu' : userMessageHasText u = false := by simpa using hu
      rcases hcur with ⟨hc, hn⟩ | ⟨t, hc, hti, hn, hg⟩
      · have hstep : segStep st (.user u) = st := by simp [segStep, hu', hc]
        rw [hstep]
        exact ⟨hidx, hgood, Or.inl ⟨hc, hn⟩⟩
      · have hstep : segStep st (.user u) =
            { st with
              current := some ({ t with messages := t.messages ++ [.user u] }) } := by
          simp [segStep, hu', hc]
        rw [hstep]
        exact ⟨hidx, hgood, Or.inr ⟨_, rfl, hti, hn, goodTurn_append_user hg hu'⟩⟩
  | assistant a =>
    rcases hcur with ⟨hc, hn⟩ | ⟨t, hc, hti, hn, hg⟩
    · have hstep : segStep st (.assistant a) = st := by simp [segStep, hc]
      rw [hstep]
      exact ⟨hidx, hgood, Or.inl ⟨hc, hn⟩⟩
    · have hstep : segStep st (.assistant a) =
          { st with
            current := some ({ t with messages := t.messages ++ [.assistant a] }) } := by
        simp [segStep, hc]
      rw [hstep]
      exact ⟨hidx, hgood, Or.inr ⟨_, rfl, hti, hn, goodTurn_append_assistant hg a⟩⟩

theorem foldl_segStep_inv (l : List TurnMessage) {st : SegState} (h : SegInv st) :
    SegInv (l.foldl segStep st) := by
  induction l generalizing st with
  | nil => exact h
  | cons m rest ih => exact ih (segStep_inv m h)

/-- The state of the segmentation loop after consuming all entries. -/
def segFinal (entries : List SessionEntry) : SegState :=
  (entries.filterMap toTurnMessage).foldl segStep
    { turns := [], current := none, turnIndex := 1 }

theorem extractConversationTurns_eq (entries : List SessionEntry) :
    extractConversationTurns entries =
      (segFinal entries).turns ++
        (match (segFinal entries).current with
         | some t => if t.messages.length > 0 then [t] else []
         | none => []) := rfl

theorem segFinal_inv (entries : List SessionEntry) : SegInv (segFinal entries) :=
  foldl_segStep_inv (entries.filterMap toTurnMessage)
    ⟨by simp, by simp, Or.inl ⟨rfl, rfl⟩⟩

/-- Master property of `extractConversationTurns`: the emitted turns are
numbered `1, 2, …` in order, and each is well-formed (`goodTurn`). -/
theorem extractConversationTurns_good (entries : List SessionEntry) :
    (extractConversationTurns entries).map ConversationTurn.index =
      List.range' 1 (extractConversationTurns entries).length ∧
    ∀ t ∈ extractConversationTurns entries, goodTurn t := by
  obtain ⟨hidx, hgood, hcur⟩ := segFinal_inv entries
  rw [extractConversationTurns_eq]
  rcases hcur with ⟨hc, -⟩ | ⟨t, hc, hti, -, hg⟩
  · rw [hc]
    simpa using ⟨hidx, hgood⟩
  · have hlen := goodTurn_messages_ne_nil hg
    rw [hc]
    simp only [hlen, if_pos]
    constructor
    · simp [hidx, hti, List.range'_1_concat, Nat.add_comm]
    · intro t' ht'
      rcases List.mem_append.1 ht' with h' | h'
      · exact hgood t' h'
      · simp at h'
        subst h'
        exact hg

/-! ## Concrete records for witnesses and counterexamples -/

def userHello : UserMessage :=
  { uuid := "u1", parentUuid := "", sessionId := "s1",
    timestamp := "2025-01-01T00:00:00Z", cwd := "/w", content := .str "Hello" }

def trBlock : ToolResultBlock :=
  { tool_use_id := "t1", content := .str "file content", is_error := none }

def userToolResultOnly : UserMessage :=
  { uuid := "u2", parentUuid := "u1", sessionId := "s1",
    timestamp := "2025-01-01T00:00:02Z", cwd := "/w",
    content := .blocks [.toolResult trBlock] }

def userToolResultThenText : UserMessage :=
  { uuid := "u3", parentUuid := "u1", sessionId := "s1",
    timestamp := "2025-01-01T00:00:03Z", cwd := "/w",
    content := .blocks [.toolResult trBlock, .text "hi"] }

def asstText : AssistantMessage :=
  { uuid := "a1", parentUuid := "u1", sessionId := "s1",
    timestamp := "2025-01-01T00:00:01Z", cwd := "/w",
    content := [.text "Hi!"], model := none, stop_reason := none }

def tuRead (i : String) (f : String) : ToolUseBlock :=
  { id := i, name := "Read", input := [("file_path", f)] }

def asstTool (id : String) (i : String) : AssistantMessage :=
  { uuid := id, parentUuid := "u1", sessionId := "s1",
    timestamp := "2025-01-01T00:00:01Z", cwd := "/w",
    content := [.toolUse (tuRead i "/a.txt")], model := none, stop_reason := none }

def asstThinkText : AssistantMessage :=
  { uuid := "a9", parentUuid := "u1", sessionId := "s1",
    timestamp := "2025-01-01T00:00:01Z", cwd := "/w",
    content := [.thinking "hm", .text "Hi!"], model := none, stop_reason := none }

/-! ## Claim C1 -/

/-- C1: for every non-empty input holding at least one text-bearing user
record, `extractConversationTurns` yields turns whose indices are exactly
`1, 2, …` (strictly increasing, 1-based, starting at 1), and every turn's
first message is a user record whose extracted text is non-empty in the
segmenter's sense (`userMessageHasText`). -/
theorem C1_segmenter_indices_and_first_message (entries : List SessionEntry)
    (hne : entries ≠ [])
    (hex : ∃ u, SessionEntry.user u ∈ entries ∧ userMessageHasText u = true) :
    (extractConversationTurns entries).map ConversationTurn.index =
      List.range' 1 (extractConversationTurns entries).length ∧
    ∀ t ∈ extractConversationTurns entries,
      ∃ u rest, t.messages = TurnMessage.user u :: rest ∧
        userMessageHasText u = true := by
  obtain ⟨h1, h2⟩ := extractConversationTurns_good entries
  refine ⟨h1, fun t ht => ?_⟩
  obtain ⟨u, rest, hm, hu, -⟩ := h2 t ht
  exact ⟨u, rest, hm, hu⟩

theorem C1_witness :
    (([SessionEntry.user userHello, SessionEntry.assistant asstText] ≠ []) ∧
      (∃ u, SessionEntry.user u ∈
          [SessionEntry.user userHello, SessionEntry.assistant asstText] ∧
        userMessageHasText u = true)) ∧
    ((extractConversationTurns
        [SessionEntry.user userHello, SessionEntry.assistant asstText]).map
          ConversationTurn.index =
      List.range' 1
        (extractConversationTurns
          [SessionEntry.user userHello, SessionEntry.assistant asstText]).length ∧
    ∀ t ∈ extractConversationTurns
        [SessionEntry.user userHello, SessionEntry.assistant asstText],
      ∃ u rest, t.messages = TurnMessage.user u :: rest ∧
        userMessageHasText u = true) :=
  ⟨⟨by simp, userHello, by simp, rfl⟩,
    C1_segmenter_indices_and_first_message _ (by simp) ⟨userHello, by simp, rfl⟩⟩

/-! ## Claim C2 (corrected) -/

def isTextBlock : ContentBlock → Bool
  | .text _ => true
  | _ => false

theorem firstTextOfBlocks_eq_find (bs : List ContentBlock) :
    firstTextOfBlocks bs =
      (match bs.find? isTextBlock with
       | some (.text t) => t
       | _ => "") := by
  induction bs with
  | nil => rfl
  | cons b rest ih =>
    cases b with
    | text t => simp [firstTextOfBlocks, List.find?, isTextBlock]
    | thinking t => simpa [firstTextOfBlocks, List.find?, isTextBlock] using ih
    | toolUse tb => simpa [firstTextOfBlocks, List.find?, isTextBlock] using ih
    | toolResult tr => simpa [firstTextOfBlocks, List.find?, isTextBlock] using ih

/-- C2 as stated is false: a user record whose blocks are a ToolResult
followed by a non-empty Text block has non-empty extracted text and DOES
start a new turn. -/
theorem C2_counterexample :
    extractUserText userToolResultThenText = "hi" ∧
    userMessageHasText userToolResultThenText = true ∧
    extractConversationTurns [SessionEntry.user userToolResultThenText] =
      [{ index := 1, messages := [TurnMessage.user userToolResultThenText] }] :=
  ⟨rfl, rfl, rfl⟩

/-- C2 (amended): for block content, the extracted text is the text of the
FIRST block of kind Text anywhere in the sequence (non-Text blocks are
skipped), empty only when no Text block exists; the segmenter's new-turn
test passes iff SOME Text block trims to non-empty; consequently a
ToolResult block followed by a non-empty Text block yields non-empty
extracted text and the record starts a new turn. -/
theorem C2_amended_first_text_block_scan (u : UserMessage)
    (bs : List ContentBlock) (hc : u.content = .blocks bs) :
    extractUserText u =
      (match bs.find? isTextBlock with
       | some (.text t) => t
       | _ => "") ∧
    (userMessageHasText u = true ↔
      ∃ t, ContentBlock.text t ∈ bs ∧ (jsTrim t).length > 0) ∧
    (∀ r t rest, bs = ContentBlock.toolResult r :: ContentBlock.text t :: rest →
      (jsTrim t).length > 0 →
      ∀ st : SegState, (segStep st (TurnMessage.user u)).current =
        some { index := st.turnIndex, messages := [TurnMessage.user u] }) := by
  refine ⟨?_, ?_, ?_⟩
  · rw [extractUserText, hc]
    exact firstTextOfBlocks_eq_find bs
  · rw [userMessageHasText, hc]
    simp only [List.any_eq_true]
    constructor
    · rintro ⟨b, hb, hpred⟩
      cases b with
      | text t => exact ⟨t, hb, by simpa using hpred⟩
      | thinking t => simp at hpred
      | toolUse tb => simp at hpred
      | toolResult tr => simp at hpred
    · rintro ⟨t, ht, hlen⟩
      exact ⟨.text t, ht, by simpa using hlen⟩
  · intro r t rest hbs hlen st
    have hu : userMessageHasText u = true := by
      rw [userMessageHasText, hc, hbs]
      simp only [List.any_eq_true]
      exact ⟨.text t, by simp, by simpa using hlen⟩
    simp [segStep, hu]

theorem C2_amended_witness :
    extractUserText userToolResultThenText =
      (match [ContentBlock.toolResult trBlock, ContentBlock.text "hi"].find? isTextBlock with
       | some (.text t) => t
       | _ => "") ∧
    (userMessageHasText userToolResultThenText = true ↔
      ∃ t, ContentBlock.text t ∈ [ContentBlock.toolResult trBlock, ContentBlock.text "hi"] ∧
        (jsTrim t).length > 0) ∧
    (∀ r t rest,
      [ContentBlock.toolResult trBlock, ContentBlock.text "hi"] =
        ContentBlock.toolResult r :: ContentBlock.text t :: rest →
      (jsTrim t).length > 0 →
      ∀ st : SegState, (segStep st (TurnMessage.user userToolResultThenText)).current =
        some { index := st.turnIndex, messages := [TurnMessage.user userToolResultThenText] }) :=
  C2_amended_first_text_block_scan userToolResultThenText
    [ContentBlock.toolResult trBlock, ContentBlock.text "hi"] rfl

/-! ## Claim C5 -/

theorem firstTextOfBlocks_of_no_text (bs : List ContentBlock)
    (h : ∀ b ∈ bs, ∃ r, b = ContentBlock.toolResult r) :
    firstTextOfBlocks bs = "" := by
  induction bs with
  | nil => rfl
  | cons b rest ih =>
    obtain ⟨r, hr⟩ := h b (by simp)
    subst hr
    exact ih fun b hb => h b (by simp [hb])

/-- C5: a user record carrying only tool-result blocks never starts a new
turn: the segmenter leaves the emitted turns and the counter unchanged,
appends the record to the open turn or drops it silently when none is
open; the partitioner appends its tool-result blocks to the open
interaction or drops them silently when none is open.  No error is raised
in any case (the step functions are total) and no page, turn or
interaction is created. -/
theorem C5_tool_result_carrier_never_starts (u : UserMessage)
    (bs : List ContentBlock) (hc : u.content = .blocks bs)
    (hall : ∀ b ∈ bs, ∃ r, b = ContentBlock.toolResult r) :
    userMessageHasText u = false ∧
    (∀ st : SegState,
      (segStep st (TurnMessage.user u)).turns = st.turns ∧
      (segStep st (TurnMessage.user u)).turnIndex = st.turnIndex ∧
      (st.current = none → segStep st (TurnMessage.user u) = st) ∧
      (∀ t, st.current = some t →
        (segStep st (TurnMessage.user u)).current =
          some ({ t with messages := t.messages ++ [TurnMessage.user u] }))) ∧
    (∀ turnIdx : Nat, ∀ st : PartState,
      (st.curInteraction = none → processMessage turnIdx st (TurnMessage.user u) = st) ∧
      (∀ i, st.curInteraction = some i →
        processMessage turnIdx st (TurnMessage.user u) =
          { st with
            curInteraction :=
              some ({ i with toolResults := i.toolResults ++ extractToolResults u }) })) := by
  have hnotext : userMessageHasText u = false := by
    rw [userMessageHasText, hc]
    simp only [List.any_eq_false]
    intro b hb
    obtain ⟨r, hr⟩ := hall b hb
    subst hr
    simp
  have hextract : extractUserText u = "" := by
    rw [extractUserText, hc]
    exact firstTextOfBlocks_of_no_text bs hall
  have hplen : ((jsTrim (extractUserText u)).length > 0) = False := by
    rw [hextract]
    simp [jsTrim]
  refine ⟨hnotext, fun st => ?_, fun turnIdx st => ?_⟩
  · cases hcs : st.current with
    | none => simp [segStep, hnotext, hcs]
    | some t => simp [segStep, hnotext, hcs]
  · constructor
    · intro hci
      simp [processMessage, hplen, hci]
    · intro i hci
      simp [processMessage, hplen, hci]

theorem C5_witness :
    userMessageHasText userToolResultOnly = false ∧
    (∀ st : SegState,
      (segStep st (TurnMessage.user userToolResultOnly)).turns = st.turns ∧
      (segStep st (TurnMessage.user userToolResultOnly)).turnIndex = st.turnIndex ∧
      (st.current = none → segStep st (TurnMessage.user userToolResultOnly) = st) ∧
      (∀ t, st.current = some t →
        (segStep st (TurnMessage.user userToolResultOnly)).current =
          some ({ t with messages := t.messages ++ [TurnMessage.user userToolResultOnly] }))) ∧
    (∀ turnIdx : Nat, ∀ st : PartState,
      (st.curInteraction = none →
        processMessage turnIdx st (TurnMessage.user userToolResultOnly) = st) ∧
      (∀ i, st.curInteraction = some i →
        processMessage turnIdx st (TurnMessage.user userToolResultOnly) =
          { st with
            curInteraction :=
              some ({ i with
                toolResults := i.toolResults ++ extractToolResults userToolResultOnly }) })) :=
  C5_tool_result_carrier_never_starts userToolResultOnly [.toolResult trBlock] rfl
    (by
      intro b hb
      simp at hb
      exact ⟨trBlock, hb⟩)

/-! ## Claim C8 -/

/-- The blocks not skipped by the classification scan. -/
def isNonThinkingBlock : ContentBlock → Bool
  | .thinking _ => false
  | _ => true

theorem firstNonThinkingIsText_iff (bs : List ContentBlock) :
    firstNonThinkingIsText bs = true ↔
      ∃ t, bs.find? isNonThinkingBlock = some (ContentBlock.text t) := by
  induction bs with
  | nil => simp [firstNonThinkingIsText]
  | cons b rest ih =>
    cases b with
    | text t => simp [firstNonThinkingIsText, List.find?, isNonThinkingBlock]
    | thinking t => simpa [firstNonThinkingIsText, List.find?, isNonThinkingBlock] using ih
    | toolUse tb => simp [firstNonThinkingIsText, List.find?, isNonThinkingBlock]
    | toolResult tr => simp [firstNonThinkingIsText, List.find?, isNonThinkingBlock]

/-- C8: an assistant record is text-starting exactly when the first
non-`thinking` content block exists and is a `text` block; a record with
no blocks, with only `thinking` blocks, or whose first non-`thinking`
block is of another kind is tool-starting; in particular a `thinking`
block immediately followed by a `text` block gives a text-starting
record. -/
theorem C8_assistant_classification (a : AssistantMessage) :
    (assistantStartsWithText a = true ↔
      ∃ t, a.content.find? isNonThinkingBlock = some (ContentBlock.text t)) ∧
    (a.content = [] → assistantStartsWithText a = false) ∧
    ((∀ b ∈ a.content, ∃ s, b = ContentBlock.thinking s) →
      assistantStartsWithText a = false) ∧
    (∀ th tx rest,
      a.content = ContentBlock.thinking th :: ContentBlock.text tx :: rest →
      assistantStartsWithText a = true) := by
  have hmain : assistantStartsWithText a = firstNonThinkingIsText a.content := by
    rw [assistantStartsWithText]
    rcases hc : a.content with - | ⟨b, rest⟩
    · simp [firstNonThinkingIsText]
    · simp
  refine ⟨?_, ?_, ?_, ?_⟩
  · rw [hmain]
    exact firstNonThinkingIsText_iff a.content
  · intro hc
    rw [hmain, hc]
    rfl
  · intro hall
    rw [hmain]
    have : ∀ bs, (∀ b ∈ bs, ∃ s, b = ContentBlock.thinking s) →
        firstNonThinkingIsText bs = false := by
      intro bs
      induction bs with
      | nil => intro _; rfl
      | cons b rest ih =>
        intro h
        obtain ⟨s, hs⟩ := h b (by simp)
        subst hs
        exact ih fun b hb => h b (by simp [hb])
    exact this a.content hall
  · intro th tx rest hc
    rw [hmain, hc]
    rfl

theorem C8_witness : assistantStartsWithText asstThinkText = true :=
  (C8_assistant_classification asstThinkText).2.2.2 "hm" "Hi!" [] rfl

/-! ## Claim C9 -/

/-- JS `Map.prototype.get` on the association-list model. -/
def mapGet (m : List (String × ToolUseBlock)) (k : String) : Option ToolUseBlock :=
  (m.find? fun kv => kv.1 = k).map Prod.snd

/-- The `tool_use` blocks of a block list, in order. -/
def toolUsesOfBlocks (bs : List ContentBlock) : List ToolUseBlock :=
  bs.filterMap fun b =>
    match b with
    | .toolUse tb => some tb
    | _ => none

/-- The `tool_use` blocks of a message list, in scan order. -/
def msgsToolUses : List TurnMessage → List ToolUseBlock
  | [] => []
  | .assistant a :: rest => toolUsesOfBlocks a.content ++ msgsToolUses rest
  | .user _ :: rest => msgsToolUses rest

/-- All `tool_use` blocks of a turn list, in the scan order of
`buildToolUseMap`. -/
def allToolUses : List ConversationTurn → List ToolUseBlock
  | [] => []
  | t :: rest => msgsToolUses t.messages ++ allToolUses rest

def tmStep (m : List (String × ToolUseBlock)) (tb : ToolUseBlock) :
    List (String × ToolUseBlock) :=
  mapSet m tb.id tb

theorem foldl_tmStep_blocks (bs : List ContentBlock)
    (m : List (String × ToolUseBlock)) :
    bs.foldl
      (fun m b =>
        match b with
        | ContentBlock.toolUse tb => mapSet m tb.id tb
        | _ => m) m =
      (toolUsesOfBlocks bs).foldl tmStep m := by
  induction bs generalizing m with
  | nil => rfl
  | cons b rest ih =>
    cases b with
    | text t => simpa [toolUsesOfBlocks, List.filterMap] using ih m
    | thinking t => simpa [toolUsesOfBlocks, List.filterMap] using ih m
    | toolUse tb =>
      simp only [List.foldl_cons, toolUsesOfBlocks, List.filterMap_cons]
      exact ih (mapSet m tb.id tb)
    | toolResult tr => simpa [toolUsesOfBlocks, List.filterMap] using ih m

theorem foldl_tmStep_msgs (msgs : List TurnMessage)
    (m : List (String × ToolUseBlock)) :
    msgs.foldl
      (fun m msg =>
        match msg with
        | TurnMessage.assistant a =>
          a.content.foldl
            (fun m b =>
              match b with
              | ContentBlock.toolUse tb => mapSet m tb.id tb
              | _ => m) m
        | TurnMessage.user _ => m) m =
      (msgsToolUses msgs).foldl tmStep m := by
  induction msgs generalizing m with
  | nil => rfl
  | cons msg rest ih =>
    cases msg with
    | user u => simpa [msgsToolUses] using ih m
    | assistant a =>
      simp only [List.foldl_cons, msgsToolUses, List.foldl_append]
      rw [foldl_tmStep_blocks]
      exact ih _

theorem buildToolUseMap_eq (turns : List ConversationTurn) :
    buildToolUseMap turns = (allToolUses turns).foldl tmStep [] := by
  suffices h : ∀ (ts : List ConversationTurn) (m : List (String × ToolUseBlock)),
      ts.foldl
        (fun m turn =>
          turn.messages.foldl
            (fun m msg =>
              match msg with
              | TurnMessage.assistant a =>
                a.content.foldl
                  (fun m b =>
                    match b with
                    | ContentBlock.toolUse tb => mapSet m tb.id tb
                    | _ => m) m
              | TurnMessage.user _ => m) m) m =
        (allToolUses ts).foldl tmStep m by
    exact h turns []
  intro ts
  induction ts with
  | nil => intro m; rfl
  | cons t rest ih =>
    intro m
    simp only [List.foldl_cons, allToolUses, List.foldl_append]
    rw [foldl_tmStep_msgs]
    exact ih _

theorem mapSet_keys (m : List (String × ToolUseBlock)) (k : String)
    (v : ToolUseBlock) :
    (mapSet m k v).map Prod.fst =
      if m.any (fun kv => kv.1 = k) then m.map Prod.fst
      else m.map Prod.fst ++ [k] := by
  by_cases h : m.any (fun kv => kv.1 = k)
  · simp only [mapSet, h, if_true, List.map_map]
    apply List.map_congr_left
    intro kv _
    by_cases hk : kv.1 = k
    · simp [hk]
    · simp [hk]
  · simp [mapSet, h]

theorem mapSet_keys_nodup {m : List (String × ToolUseBlock)} (k : String)
    (v : ToolUseBlock) (h : (m.map Prod.fst).Nodup) :
    ((mapSet m k v).map Prod.fst).Nodup := by
  rw [mapSet_keys]
  by_cases hk : m.any (fun kv => kv.1 = k)
  · simpa [hk] using h
  · rw [if_neg hk]
    rw [List.nodup_append]
    refine ⟨h, by simp, ?_⟩
    intro x hx
    simp only [List.mem_singleton]
    intro hxk
    subst hxk
    rw [List.any_eq_true] at hk
    obtain ⟨kv, hkv, hkv1⟩ := List.mem_map.1 hx
    exact hk ⟨kv, hkv, by simp [hkv1]⟩

theorem find?_replace_eq (m : List (String × ToolUseBlock)) (k : String)
    (v : ToolUseBlock) (h : m.any (fun kv => kv.1 = k) = true) :
    ((m.map fun kv => if kv.1 = k then (k, v) else kv).find?
      (fun kv => kv.1 = k)) = some (k, v) := by
  induction m with
  | nil => simp at h
  | cons kv rest ih =>
    by_cases hkv : kv.1 = k
    · simp [List.find?, hkv]
    · have hrest : rest.any (fun kv => kv.1 = k) = true := by
        rcases List.any_eq_true.1 h with ⟨x, hx, hx1⟩
        rcases List.mem_cons.1 hx with hh | hh
        · exact absurd (by simpa using (hh ▸ hx1 : decide (kv.1 = k) = true)) hkv
        · exact List.any_eq_true.2 ⟨x, hh, hx1⟩
      simpa [List.find?, hkv] using ih hrest

theorem find?_replace_ne (m : List (String × ToolUseBlock)) (k : String)
    (v : ToolUseBlock) (k' : String) (h : k' ≠ k) :
    ((m.map fun kv => if kv.1 = k then (k, v) else kv).find?
      (fun kv => kv.1 = k')) = m.find? (fun kv => kv.1 = k') := by
  induction m with
  | nil => rfl
  | cons kv rest ih =>
    by_cases hkv : kv.1 = k
    · have hne : ¬(k = k') := fun hh => h hh.symm
      have hne2 : ¬(kv.1 = k') := by
        rw [hkv]
        exact hne
      simpa [List.find?, hkv, hne, hne2] using ih
    · by_cases hkv' : kv.1 = k'
      · simp [List.find?, hkv, hkv', h]
      · simpa [List.find?, hkv, hkv'] using ih

theorem mapGet_mapSet (m : List (String × ToolUseBlock)) (k : String)
    (v : ToolUseBlock) (k' : String) :
    mapGet (mapSet m k v) k' = if k' = k then some v else mapGet m k' := by
  by_cases hany : m.any (fun kv => kv.1 = k) = true
  · have hms : mapSet m k v = m.map fun kv => if kv.1 = k then (k, v) else kv := by
      simp [mapSet, hany]
    rw [hms]
    by_cases h' : k' = k
    · subst h'
      rw [mapGet, find?_replace_eq m k' v hany]
      simp
    · rw [mapGet, find?_replace_ne m k v k' h']
      simp [h', mapGet]
  · have hms : mapSet m k v = m ++ [(k, v)] := by simp [mapSet, hany]
    rw [hms, mapGet, List.find?_append]
    by_cases h' : k' = k
    · subst h'
      have hm : m.find? (fun kv => kv.1 = k') = none := by
        rw [List.find?_eq_none]
        intro kv hkv
        simp only [decide_eq_true_eq]
        intro hh
        exact hany (List.any_eq_true.2 ⟨kv, hkv, by simpa using hh⟩)
      rw [hm]
      simp [List.find?]
    · have hone : (([(k, v)] : List (String × ToolUseBlock)).find?
          (fun kv => kv.1 = k')) = none := by
        have hkk : ¬(k = k') := fun hh => h' hh.symm
        simp [List.find?, hkk]
      rw [hone]
      simp [h', mapGet]

theorem foldl_tmStep_get (l : List ToolUseBlock)
    (m : List (String × ToolUseBlock)) (k : String) :
    mapGet (l.foldl tmStep m) k =
      ((l.filter fun tb => tb.id = k).getLast?).or (mapGet m k) := by
  induction l generalizing m with
  | nil => simp
  | cons tb rest ih =>
    simp only [List.foldl_cons]
    rw [ih, tmStep, mapGet_mapSet]
    by_cases h : tb.id = k
    · have hfil : ((tb :: rest).filter fun tb => tb.id = k) =
          tb :: (rest.filter fun tb => tb.id = k) := by
        simp [List.filter_cons, h]
      rw [hfil, List.getLast?_cons, if_pos h.symm]
      cases hr : (rest.filter fun tb => tb.id = k).getLast? with
      | none => simp [hr]
      | some x => simp [hr]
    · have hfil : ((tb :: rest).filter fun tb => tb.id = k) =
          rest.filter fun tb => tb.id = k := by
        simp [List.filter_cons, h]
      rw [hfil, if_neg (fun hh => h hh.symm)]

theorem foldl_tmStep_nodup (l : List ToolUseBlock)
    (m : List (String × ToolUseBlock)) (h : (m.map Prod.fst).Nodup) :
    ((l.foldl tmStep m).map Prod.fst).Nodup := by
  induction l generalizing m with
  | nil => exact h
  | cons tb rest ih => exact ih _ (mapSet_keys_nodup _ _ h)

/-- C9: the tool correlation index has exactly one entry per distinct
invocation id occurring in the assistant records' content blocks across
all turns (keys are distinct, and an id is a key iff some scanned
invocation bears it), and a duplicated id maps to the LAST invocation in
scan order (last-write-wins; `buildToolUseMap` is a total function, so no
error is raised). -/
theorem C9_tool_use_map (turns : List ConversationTurn) :
    ((buildToolUseMap turns).map Prod.fst).Nodup ∧
    (∀ i, i ∈ (buildToolUseMap turns).map Prod.fst ↔
      ∃ tb ∈ allToolUses turns, tb.id = i) ∧
    (∀ i, mapGet (buildToolUseMap turns) i =
      ((allToolUses turns).filter fun tb => tb.id = i).getLast?) := by
  rw [buildToolUseMap_eq]
  refine ⟨foldl_tmStep_nodup _ [] (by simp), ?_, ?_⟩
  · intro i
    have hget := foldl_tmStep_get (allToolUses turns) [] i
    have hbase : mapGet ([] : List (String × ToolUseBlock)) i = none := rfl
    rw [hbase, Option.or_none] at hget
    constructor
    · intro hi
      obtain ⟨kv, hkv, hkv1⟩ := List.mem_map.1 hi
      have hsome : (mapGet ((allToolUses turns).foldl tmStep []) i).isSome := by
        rw [mapGet]
        have : ((allToolUses turns).foldl tmStep []).find?
            (fun kv => kv.1 = i) |>.isSome := by
          rw [List.find?_isSome]
          exact ⟨kv, hkv, by simp [hkv1]⟩
        simpa using this
      rw [hget] at hsome
      rcases hlast : ((allToolUses turns).filter fun tb => tb.id = i).getLast? with - | x
      · rw [hlast] at hsome
        simp at hsome
      · have hx := List.mem_of_getLast?_eq_some hlast
        have := List.mem_filter.1 hx
        exact ⟨x, this.1, by simpa using this.2⟩
    · rintro ⟨tb, htb, hid⟩
      have hne : ((allToolUses turns).filter fun tb => tb.id = i) ≠ [] := by
        intro hnil
        have := List.filter_eq_nil_iff.1 hnil tb htb
        simp [hid] at this
      have hx := List.getLast?_eq_getLast_of_ne_nil hne
      have hsome : (mapGet ((allToolUses turns).foldl tmStep []) i).isSome := by
        rw [hget, hx]
        rfl
      rcases hfind : ((allToolUses turns).foldl tmStep []).find?
          (fun kv => kv.1 = i) with - | kv
      · rw [mapGet, hfind] at hsome
        simp at hsome
      · have hkv := List.mem_of_find?_eq_some hfind
        have hkv1 := List.find?_some hfind
        exact List.mem_map.2 ⟨kv, hkv, by simpa using hkv1⟩
  · intro i
    have hget := foldl_tmStep_get (allToolUses turns) [] i
    have hbase : mapGet ([] : List (String × ToolUseBlock)) i = none := rfl
    rw [hbase, Option.or_none] at hget
    exact hget

/-! ## Claim C6 (corrected) -/

/-- The identity key of an entry when it is non-empty (JS truthy);
summaries and empty keys yield `none`. -/
def entryKeyNonEmpty (e : SessionEntry) : Option String :=
  match getEntryUuid e with
  | some u => if u = "" then none else some u
  | none => none

/-- The truthy identity keys of an entry list, in order. -/
def nonEmptyKeys (l : List SessionEntry) : List String :=
  l.filterMap entryKeyNonEmpty

theorem mergeRun_cons_summary {e : SessionEntry} (h : isSummaryEntry e = true)
    (seen : List String) (rest : List SessionEntry) :
    mergeRun seen (e :: rest) = mergeRun seen rest := by
  simp [mergeRun, h]

theorem mergeRun_cons_falsy {e : SessionEntry} (h : isSummaryEntry e = false)
    (hk : uuidTruthy (getEntryUuid e) = false)
    (seen : List String) (rest : List SessionEntry) :
    mergeRun seen (e :: rest) = e :: mergeRun seen rest := by
  simp [mergeRun, h, hk]

theorem mergeRun_cons_seen {e : SessionEntry} {u : String}
    (h : isSummaryEntry e = false) (hk : getEntryUuid e = some u) (hu : u ≠ "")
    {seen : List String} (hs : seen.contains u = true) (rest : List SessionEntry) :
    mergeRun seen (e :: rest) = mergeRun seen rest := by
  have hs' : u ∈ seen := by simpa using hs
  simp [mergeRun, h, hk, uuidTruthy, hu, hs']

theorem mergeRun_cons_new {e : SessionEntry} {u : String}
    (h : isSummaryEntry e = false) (hk : getEntryUuid e = some u) (hu : u ≠ "")
    {seen : List String} (hs : seen.contains u = false) (rest : List SessionEntry) :
    mergeRun seen (e :: rest) = e :: mergeRun (u :: seen) rest := by
  have hs' : ¬(u ∈ seen) := by simpa using hs
  simp [mergeRun, h, hk, uuidTruthy, hu, hs']

theorem getEntryUuid_eq_none_iff (e : SessionEntry) :
    getEntryUuid e = none ↔ isSummaryEntry e = true := by
  cases e <;> simp [getEntryUuid, isSummaryEntry]

theorem mergeRun_no_summary (l : List SessionEntry) (seen : List String) :
    ∀ e ∈ mergeRun seen l, isSummaryEntry e = false := by
  induction l generalizing seen with
  | nil => intro e he; simp [mergeRun] at he
  | cons e rest ih =>
    intro e' he'
    by_cases hsum : isSummaryEntry e = true
    · rw [mergeRun_cons_summary hsum] at he'
      exact ih seen e' he'
    · have hsum' : isSummaryEntry e = false := by simpa using hsum
      rcases hk : getEntryUuid e with - | u
      · exact absurd ((getEntryUuid_eq_none_iff e).1 hk) hsum
      · by_cases hu : u = ""
        · subst hu
          rw [mergeRun_cons_falsy hsum' (by simp [hk, uuidTruthy])] at he'
          rcases List.mem_cons.1 he' with h' | h'
          · subst h'; exact hsum'
          · exact ih seen e' h'
        · rcases hs : seen.contains u with - | -
          · rw [mergeRun_cons_new hsum' hk hu hs] at he'
            rcases List.mem_cons.1 he' with h' | h'
            · subst h'; exact hsum'
            · exact ih (u :: seen) e' h'
          · rw [mergeRun_cons_seen hsum' hk hu hs] at he'
            exact ih seen e' he'

theorem mergeRun_keys_fresh_nodup (l : List SessionEntry) (seen : List String) :
    (∀ u ∈ nonEmptyKeys (mergeRun seen l), seen.contains u = false) ∧
    (nonEmptyKeys (mergeRun seen l)).Nodup := by
  induction l generalizing seen with
  | nil => exact ⟨by intro u hu; simp [mergeRun, nonEmptyKeys] at hu, by simp [mergeRun, nonEmptyKeys]⟩
  | cons e rest ih =>
    by_cases hsum : isSummaryEntry e = true
    · rw [mergeRun_cons_summary hsum]
      exact ih seen
    · have hsum' : isSummaryEntry e = false := by simpa using hsum
      rcases hk : getEntryUuid e with - | u
      · exact absurd ((getEntryUuid_eq_none_iff e).1 hk) hsum
      · by_cases hu : u = ""
        · subst hu
          rw [mergeRun_cons_falsy hsum' (by simp [hk, uuidTruthy])]
          have hkey : entryKeyNonEmpty e = none := by simp [entryKeyNonEmpty, hk]
          have heq : nonEmptyKeys (e :: mergeRun seen rest) =
              nonEmptyKeys (mergeRun seen rest) := by
            simp [nonEmptyKeys, List.filterMap_cons, hkey]
          rw [heq]
          exact ih seen
        · rcases hs : seen.contains u with - | -
          · rw [mergeRun_cons_new hsum' hk hu hs]
            have hkey : entryKeyNonEmpty e = some u := by simp [entryKeyNonEmpty, hk, hu]
            have heq : nonEmptyKeys (e :: mergeRun (u :: seen) rest) =
                u :: nonEmptyKeys (mergeRun (u :: seen) rest) := by
              simp [nonEmptyKeys, List.filterMap_cons, hkey]
            rw [heq]
            obtain ⟨ihf, ihn⟩ := ih (u :: seen)
            constructor
            · intro v hv
              rcases List.mem_cons.1 hv with h' | h'
              · subst h'; exact hs
              · have := ihf v h'
                simp only [List.contains_cons] at this
                exact (Bool.or_eq_false_iff.1 this).2
            · rw [List.nodup_cons]
              refine ⟨?_, ihn⟩
              intro hmem
              have := ihf u hmem
              simp [List.contains_cons] at this
          · rw [mergeRun_cons_seen hsum' hk hu hs]
            exact ih seen

theorem mergeRun_keys_mem (l : List SessionEntry) (seen : List String)
    (u : String) :
    u ∈ nonEmptyKeys (mergeRun seen l) ↔
      seen.contains u = false ∧ u ∈ nonEmptyKeys l := by
  induction l generalizing seen with
  | nil => simp [mergeRun, nonEmptyKeys]
  | cons e rest ih =>
    by_cases hsum : isSummaryEntry e = true
    · rw [mergeRun_cons_summary hsum]
      have hkey : entryKeyNonEmpty e = none := by
        simp [entryKeyNonEmpty, (getEntryUuid_eq_none_iff e).2 hsum]
      rw [ih seen]
      simp [nonEmptyKeys, List.filterMap_cons, hkey]
    · have hsum' : isSummaryEntry e = false := by simpa using hsum
      rcases hk : getEntryUuid e with - | v
      · exact absurd ((getEntryUuid_eq_none_iff e).1 hk) hsum
      · by_cases hv : v = ""
        · subst hv
          rw [mergeRun_cons_falsy hsum' (by simp [hk, uuidTruthy])]
          have hkey : entryKeyNonEmpty e = none := by simp [entryKeyNonEmpty, hk]
          have h1 : nonEmptyKeys (e :: mergeRun seen rest) =
              nonEmptyKeys (mergeRun seen rest) := by
            simp [nonEmptyKeys, List.filterMap_cons, hkey]
          have h2 : nonEmptyKeys (e :: rest) = nonEmptyKeys rest := by
            simp [nonEmptyKeys, List.filterMap_cons, hkey]
          rw [h1, h2]
          exact ih seen
        · have hkey : entryKeyNonEmpty e = some v := by simp [entryKeyNonEmpty, hk, hv]
          have h2 : nonEmptyKeys (e :: rest) = v :: nonEmptyKeys rest := by
            simp [nonEmptyKeys, List.filterMap_cons, hkey]
          rcases hs : seen.contains v with - | -
          · rw [mergeRun_cons_new hsum' hk hv hs]
            have h1 : nonEmptyKeys (e :: mergeRun (v :: seen) rest) =
                v :: nonEmptyKeys (mergeRun (v :: seen) rest) := by
              simp [nonEmptyKeys, List.filterMap_cons, hkey]
            rw [h1, h2]
            by_cases huv : u = v
            · subst huv
              have hs' : ¬(u ∈ seen) := by simpa using hs
              simp [hs']
            · simp only [List.mem_cons, huv, false_or]
              rw [ih (v :: seen)]
              have hvu : (v == u) = false :=
                beq_eq_false_iff_ne.2 fun hh => huv hh.symm
              have hcc : (v :: seen).contains u = seen.contains u := by
                simp [List.contains_cons, hvu]
                exact fun hh => absurd hh huv
              rw [hcc]
          · rw [mergeRun_cons_seen hsum' hk hv hs]
            rw [ih seen, h2]
            by_cases huv : u = v
            · subst huv
              have hs' : u ∈ seen := by simpa using hs
              simp [hs']
            · simp [huv]

theorem mergeRun_find_first (l : List SessionEntry) (seen : List String)
    (u : String) (hu : u ≠ "") (hs : seen.contains u = false) :
    (mergeRun seen l).find? (fun e => getEntryUuid e = some u) =
      l.find? (fun e => getEntryUuid e = some u) := by
  induction l generalizing seen with
  | nil => simp [mergeRun]
  | cons e rest ih =>
    by_cases hsum : isSummaryEntry e = true
    · rw [mergeRun_cons_summary hsum]
      have hke : getEntryUuid e = none := (getEntryUuid_eq_none_iff e).2 hsum
      have hne : ¬(getEntryUuid e = some u) := by simp [hke]
      rw [List.find?_cons_of_neg _ (by simpa using hne)]
      exact ih seen hs
    · have hsum' : isSummaryEntry e = false := by simpa using hsum
      rcases hk : getEntryUuid e with - | v
      · exact absurd ((getEntryUuid_eq_none_iff e).1 hk) hsum
      · by_cases hv : v = ""
        · subst hv
          rw [mergeRun_cons_falsy hsum' (by simp [hk, uuidTruthy])]
          have hne : ¬(getEntryUuid e = some u) := by
            simp only [hk, Option.some_inj]
            intro hh
            exact hu hh.symm
          rw [List.find?_cons_of_neg _ (by simpa using hne),
            List.find?_cons_of_neg _ (by simpa using hne)]
          exact ih seen hs
        · by_cases huv : v = u
          · subst huv
            rw [mergeRun_cons_new hsum' hk hv hs]
            have hpos : getEntryUuid e = some v := hk
            rw [List.find?_cons_of_pos _ (by simpa using hpos),
              List.find?_cons_of_pos _ (by simpa using hpos)]
          · have hne : ¬(getEntryUuid e = some u) := by
              simp only [hk, Option.some_inj]
              exact huv
            rcases hsv : seen.contains v with - | -
            · rw [mergeRun_cons_new hsum' hk hv hsv]
              rw [List.find?_cons_of_neg _ (by simpa using hne),
                List.find?_cons_of_neg _ (by simpa using hne)]
              have hvu : (v == u) = false :=
                beq_eq_false_iff_ne.2 fun hh => huv hh
              have hs' : (v :: seen).contains u = false := by
                simp [List.contains_cons, hvu, hs]
                exact ⟨fun hh => huv hh.symm, by simpa using hs⟩
              exact ih (v :: seen) hs'
            · rw [mergeRun_cons_seen hsum' hk hv hsv]
              rw [List.find?_cons_of_neg _ (by simpa using hne)]
              exact ih seen hs

/-- C6 as stated is false: JS string truthiness makes the merge skip
de-duplication for entries whose identity key is the empty string, so two
sources sharing one overlapping record with key `""` merge to TWO
records, not the one-element union of distinct ids. -/
theorem C6_counterexample :
    getEntryUuid (SessionEntry.user { userHello with uuid := "" }) = some "" ∧
    mergeLoadedSessions
        [[SessionEntry.user { userHello with uuid := "" }],
         [SessionEntry.user { userHello with uuid := "" }]] =
      [SessionEntry.user { userHello with uuid := "" },
       SessionEntry.user { userHello with uuid := "" }] :=
  ⟨rfl, rfl⟩

/-- C6 (amended): the merge output never contains a summary entry, and
de-duplication by identity key holds for all NON-EMPTY keys: each
distinct non-empty key of the input occurs exactly once in the output,
and the record kept for it is the first input record bearing it; records
whose key is the empty string (JS-falsy) bypass de-duplication entirely.
This holds for every source list, hence for whatever source order the
(implementation-defined) timestamp sort produces. -/
theorem C6_amended_merge_dedup (ss : List (List SessionEntry)) :
    (∀ e ∈ mergeLoadedSessions ss, isSummaryEntry e = false) ∧
    (nonEmptyKeys (mergeLoadedSessions ss)).Nodup ∧
    (∀ u, u ∈ nonEmptyKeys (mergeLoadedSessions ss) ↔ u ∈ nonEmptyKeys ss.flatten) ∧
    (∀ u, u ≠ "" →
      (mergeLoadedSessions ss).find? (fun e => getEntryUuid e = some u) =
        ss.flatten.find? (fun e => getEntryUuid e = some u)) := by
  refine ⟨mergeRun_no_summary ss.flatten [], (mergeRun_keys_fresh_nodup ss.flatten []).2,
    ?_, ?_⟩
  · intro u
    rw [mergeLoadedSessions, mergeRun_keys_mem]
    simp
  · intro u hu
    exact mergeRun_find_first ss.flatten [] u hu rfl

theorem C6_amended_witness :
    (mergeLoadedSessions
        [[SessionEntry.user userHello],
         [SessionEntry.user userHello, SessionEntry.assistant asstText]]).find?
      (fun e => getEntryUuid e = some "u1") =
      ([[SessionEntry.user userHello],
        [SessionEntry.user userHello, SessionEntry.assistant asstText]] :
          List (List SessionEntry)).flatten.find?
        (fun e => getEntryUuid e = some "u1") :=
  (C6_amended_merge_dedup
      [[SessionEntry.user userHello],
       [SessionEntry.user userHello, SessionEntry.assistant asstText]]).2.2.2
    "u1" (by decide)

/-! ## Properties of the page partitioner -/

def pageIdx : Page → Nat
  | .user p => p.pageIndex
  | .text p => p.pageIndex
  | .tool p => p.pageIndex

def pageTurnIdx : Page → Nat
  | .user p => p.turnIndex
  | .text p => p.turnIndex
  | .tool p => p.turnIndex

def isUserPage : Page → Bool
  | .user _ => true
  | _ => false

/-- A message that makes the partitioner emit a `UserPage`. -/
def userTextMsg : TurnMessage → Bool
  | .user u => (jsTrim (extractUserText u)).length > 0
  | .assistant _ => false

/-- Invariant of the partition loop for the turn with index `t`: emitted
pages carry `pageIndex` `1, 2, …` in order and `turnIndex` `t`; when no
tool page is open the counter is one past the pages and no interaction is
open; when one is open it owns the next index, the counter is one past
it, and it is non-trivial (it holds an interaction or one is open). -/
def PartInv (t : Nat) (st : PartState) : Prop :=
  st.pages.map pageIdx = List.range' 1 st.pages.length ∧
  (∀ p ∈ st.pages, pageTurnIdx p = t) ∧
  ((st.curToolPage = none ∧ st.pageIndex = st.pages.length + 1 ∧
      st.curInteraction = none) ∨
    (∃ tp, st.curToolPage = some tp ∧ tp.turnIndex = t ∧
      tp.pageIndex = st.pages.length + 1 ∧ st.pageIndex = st.pages.length + 2 ∧
      (st.curInteraction ≠ none ∨ tp.interactions ≠ [])))

theorem flushToolPage_spec (t : Nat) {st : PartState} (h : PartInv t st) :
    PartInv t (flushToolPage st) ∧
    (flushToolPage st).curToolPage = none ∧
    (flushToolPage st).curInteraction = none ∧
    (flushToolPage st).pageIndex = (flushToolPage st).pages.length + 1 ∧
    ∃ suffix, (flushToolPage st).pages = st.pages ++ suffix ∧
      ∀ p ∈ suffix, isUserPage p = false ∧ pageTurnIdx p = t := by
  obtain ⟨hidx, hturn, hcur⟩ := h
  rcases hcur with ⟨hc, hn, hi⟩ | ⟨tp, hc, htpt, htpi, hn, hne⟩
  · have hstep : flushToolPage st = st := by
      simp [flushToolPage, hc, hi]
    rw [hstep]
    exact ⟨⟨hidx, hturn, Or.inl ⟨hc, hn, hi⟩⟩, hc, hi, hn, [], by simp, by simp⟩
  · rcases hci : st.curInteraction with - | i
    · rcases hne with hne | hne
      · exact absurd hci hne
      · have hlen : tp.interactions.length > 0 := by
          cases hint : tp.interactions with
          | nil => exact absurd hint hne
          | cons x xs => simp [hint]
        have hstep : flushToolPage st =
            { st with pages := st.pages ++ [.tool tp], curToolPage := none } := by
          simp [flushToolPage, hci, hc, hlen]
        rw [hstep]
        refine ⟨⟨?_, ?_, Or.inl ⟨rfl, ?_, hci⟩⟩, rfl, hci, ?_, [.tool tp], rfl, ?_⟩
        · simp [hidx, htpi, pageIdx, List.range'_1_concat, Nat.add_comm]
        · intro p hp
          rcases List.mem_append.1 hp with h' | h'
          · exact hturn p h'
          · simp at h'
            subst h'
            exact htpt
        · simp [hn]
        · simp [hn]
        · intro p hp
          simp at hp
          subst hp
          exact ⟨rfl, htpt⟩
    · have hlen : (tp.interactions ++ [i]).length > 0 := by simp
      have hstep : flushToolPage st =
          { st with
            pages := st.pages ++ [.tool { tp with interactions := tp.interactions ++ [i] }]
            curToolPage := none
            curInteraction := none } := by
        simp [flushToolPage, hci, hc, hlen]
      rw [hstep]
      refine ⟨⟨?_, ?_, Or.inl ⟨rfl, ?_, rfl⟩⟩, rfl, rfl, ?_,
        [.tool { tp with interactions := tp.interactions ++ [i] }], rfl, ?_⟩
      · simp [hidx, htpi, pageIdx, List.range'_1_concat, Nat.add_comm]
      · intro p hp
        rcases List.mem_append.1 hp with h' | h'
        · exact hturn p h'
        · simp at h'
          subst h'
          exact htpt
      · simp [hn]
      · simp [hn]
      · intro p hp
        simp at hp
        subst hp
        exact ⟨rfl, htpt⟩

theorem processMessage_inv (t : Nat) {st : PartState} (h : PartInv t st)
    (m : TurnMessage) : PartInv t (processMessage t st m) := by
  cases m with
  | user u =>
    by_cases hp : (jsTrim (extractUserText u)).length > 0
    · obtain ⟨hinv', hc', hi', hn', -⟩ := flushToolPage_spec t h
      obtain ⟨hidx', hturn', -⟩ := hinv'
      have hstep : processMessage t st (.user u) =
          { flushToolPage st with
            pages := (flushToolPage st).pages ++
              [.user { turnIndex := t, pageIndex := (flushToolPage st).pageIndex, user := u }]
            pageIndex := (flushToolPage st).pageIndex + 1 } := by
        simp [processMessage, hp]
      rw [hstep]
      refine ⟨?_, ?_, Or.inl ⟨hc', by simp [hn'], hi'⟩⟩
      · simp [hidx', hn', pageIdx, List.range'_1_concat, Nat.add_comm]
      · intro p hp'
        rcases List.mem_append.1 hp' with h' | h'
        · exact hturn' p h'
        · simp at h'
          subst h'
          rfl
    · obtain ⟨hidx, hturn, hcur⟩ := h
      rcases hci : st.curInteraction with - | i
      · have hstep : processMessage t st (.user u) = st := by
          simp [processMessage, hp, hci]
        rw [hstep]
        exact ⟨hidx, hturn, hcur⟩
      · have hstep : processMessage t st (.user u) =
            { st with
              curInteraction :=
                some ({ i with toolResults := i.toolResults ++ extractToolResults u }) } := by
          simp [processMessage, hp, hci]
        rw [hstep]
        rcases hcur with ⟨hc, hn, hi⟩ | ⟨tp, hc, htpt, htpi, hn, hne⟩
        · rw [hci] at hi
          exact absurd hi (by simp)
        · exact ⟨hidx, hturn, Or.inr ⟨tp, hc, htpt, htpi, hn, Or.inl (by simp)⟩⟩
  | assistant a =>
    by_cases ha : assistantStartsWithText a = true
    · obtain ⟨hinv', hc', hi', hn', -⟩ := flushToolPage_spec t h
      obtain ⟨hidx', hturn', -⟩ := hinv'
      have hstep : processMessage t st (.assistant a) =
          { flushToolPage st with
            pages := (flushToolPage st).pages ++
              [.text { turnIndex := t, pageIndex := (flushToolPage st).pageIndex, assistant := a }]
            pageIndex := (flushToolPage st).pageIndex + 1 } := by
        simp [processMessage, ha]
      rw [hstep]
      refine ⟨?_, ?_, Or.inl ⟨hc', by simp [hn'], hi'⟩⟩
      · simp [hidx', hn', pageIdx, List.range'_1_concat, Nat.add_comm]
      · intro p hp'
        rcases List.mem_append.1 hp' with h' | h'
        · exact hturn' p h'
        · simp at h'
          subst h'
          rfl
    · have ha' : assistantStartsWithText a = false := by simpa using ha
      obtain ⟨hidx, hturn, hcur⟩ := h
      rcases hcur with ⟨hc, hn, hi⟩ | ⟨tp, hc, htpt, htpi, hn, hne⟩
      · -- no tool page open (hence no interaction): open a new tool page
        have hstep : processMessage t st (.assistant a) =
            { st with
              curToolPage :=
                some { turnIndex := t, pageIndex := st.pageIndex, interactions := [] }
              pageIndex := st.pageIndex + 1
              curInteraction := some { toolUse := a, toolResults := [] } } := by
          simp [processMessage, ha', hi, hc]
        rw [hstep]
        exact ⟨hidx, hturn,
          Or.inr ⟨_, rfl, rfl, by simp [hn], by simp [hn], Or.inl (by simp)⟩⟩
      · rcases hci : st.curInteraction with - | i
        · -- tool page open, no open interaction: start one
          have hstep : processMessage t st (.assistant a) =
              { st with curInteraction := some { toolUse := a, toolResults := [] } } := by
            simp [processMessage, ha', hci, hc]
          rw [hstep]
          exact ⟨hidx, hturn,
            Or.inr ⟨tp, hc, htpt, htpi, hn, Or.inl (by simp)⟩⟩
        · -- tool page open and interaction open: push it, start a new one
          have hstep : processMessage t st (.assistant a) =
              { st with
                curToolPage :=
                  some ({ tp with interactions := tp.interactions ++ [i] })
                curInteraction := some { toolUse := a, toolResults := [] } } := by
            simp [processMessage, ha', hci, hc]
          rw [hstep]
          exact ⟨hidx, hturn,
            Or.inr ⟨_, rfl, htpt, htpi, hn, Or.inr (by simp)⟩⟩

theorem foldl_processMessage_inv (t : Nat) (l : List TurnMessage) {st : PartState}
    (h : PartInv t st) : PartInv t (l.foldl (processMessage t) st) := by
  induction l generalizing st with
  | nil => exact h
  | cons m rest ih => exact ih (processMessage_inv t h m)

theorem convertTurn_pages_spec (turn : ConversationTurn) :
    (convertTurn turn).pages.map pageIdx =
      List.range' 1 (convertTurn turn).pages.length ∧
    ∀ p ∈ (convertTurn turn).pages, pageTurnIdx p = turn.index := by
  have hinit : PartInv turn.index
      { pages := [], pageIndex := 1, curToolPage := none, curInteraction := none } :=
    ⟨by simp, by simp, Or.inl ⟨rfl, rfl, rfl⟩⟩
  have hfold := foldl_processMessage_inv turn.index turn.messages hinit
  obtain ⟨hinv, -, -, -, -⟩ := flushToolPage_spec turn.index hfold
  exact ⟨hinv.1, hinv.2.1⟩

/-! ## Claim C4 -/

/-- C4: within every turn emitted by the partitioner, the `pageIndex`
values of the pages, in emission order, are exactly `1, 2, …` — in
particular strictly increasing, starting at 1, drawn from the single
counter shared by user, text and tool pages. -/
theorem C4_page_indices_shared_counter (turns : List ConversationTurn)
    (tp : TurnPages) (htp : tp ∈ convertTurnsToPages turns) :
    tp.pages.map pageIdx = List.range' 1 tp.pages.length ∧
    (tp.pages.map pageIdx).Pairwise (· < ·) ∧
    (tp.pages ≠ [] → (tp.pages.map pageIdx).head? = some 1) := by
  obtain ⟨turn, hturn, htpeq⟩ := List.mem_map.1 htp
  obtain ⟨h1, -⟩ := convertTurn_pages_spec turn
  rw [← htpeq]
  refine ⟨h1, ?_, ?_⟩
  · rw [h1]
    have := List.pairwise_lt_range' 1 (convertTurn turn).pages.length 1
    simpa using this
  · intro hne
    rw [h1]
    rcases hl : (convertTurn turn).pages.length with - | n
    · exact absurd (List.length_eq_zero.1 hl) hne
    · rw [List.range'_succ]
      rfl

def turnEx : ConversationTurn :=
  { index := 1, messages := [TurnMessage.user userHello, TurnMessage.assistant asstText] }

theorem C4_witness :
    ((convertTurn turnEx).pages.map pageIdx =
      List.range' 1 (convertTurn turnEx).pages.length) ∧
    ((convertTurn turnEx).pages.map pageIdx).Pairwise (· < ·) ∧
    ((convertTurn turnEx).pages ≠ [] →
      ((convertTurn turnEx).pages.map pageIdx).head? = some 1) :=
  C4_page_indices_shared_counter [turnEx] _ (List.mem_map_of_mem convertTurn (by simp))

/-! ## Claim C3 -/

/-- A message that may sit inside a tool run: a tool-starting assistant
record or a tool-result-carrier user record. -/
def toolRunElem : TurnMessage → Bool
  | .assistant a => !assistantStartsWithText a
  | .user u => (jsTrim (extractUserText u)).length = 0

/-- A message that closes an open tool page: a text-bearing user record
or a text-starting assistant record. -/
def isCloser : TurnMessage → Bool
  | .user u => (jsTrim (extractUserText u)).length > 0
  | .assistant a => assistantStartsWithText a

/-- The page the closing message itself produces, at the given index. -/
def closerPage (t idx : Nat) : TurnMessage → Page
  | .user u => .user { turnIndex := t, pageIndex := idx, user := u }
  | .assistant a => .text { turnIndex := t, pageIndex := idx, assistant := a }

def countAssistants (l : List TurnMessage) : Nat :=
  l.countP fun m =>
    match m with
    | .assistant _ => true
    | .user _ => false

/-- Tool-result blocks contributed by the leading user records of a
message list. -/
def leadingResults : List TurnMessage → List ToolResultBlock
  | .user u :: rest => extractToolResults u ++ leadingResults rest
  | _ => []

/-- Drop the leading user records of a message list. -/
def afterUsers : List TurnMessage → List TurnMessage
  | .user _ :: rest => afterUsers rest
  | l => l

theorem afterUsers_length_le (l : List TurnMessage) :
    (afterUsers l).length ≤ l.length := by
  induction l with
  | nil => simp [afterUsers]
  | cons m rest ih =>
    cases m with
    | user u =>
      calc (afterUsers (TurnMessage.user u :: rest)).length
          = (afterUsers rest).length := by rw [afterUsers]
        _ ≤ rest.length := ih
        _ ≤ (TurnMessage.user u :: rest).length := by simp
    | assistant a => simp [afterUsers]

/-- The interactions a tool run contributes to its tool page: one per
assistant record, in order, each paired with the tool results of the user
records that follow it up to the next assistant record. -/
def groupInter : List TurnMessage → List ToolInteraction
  | [] => []
  | .user _ :: rest => groupInter rest
  | .assistant a :: rest =>
    { toolUse := a, toolResults := leadingResults rest } :: groupInter (afterUsers rest)
termination_by l => l.length
decreasing_by
  · simp
  · simp only [List.length_cons]
    exact Nat.lt_succ_of_le (afterUsers_length_le rest)

/-- The interaction sequence produced by folding a tool run into an open
interaction: the completed interactions and the one left open. -/
def interSeq (i : ToolInteraction) : List TurnMessage → List ToolInteraction × ToolInteraction
  | [] => ([], i)
  | .user u :: rest =>
    interSeq { i with toolResults := i.toolResults ++ extractToolResults u } rest
  | .assistant a :: rest =>
    ((interSeq { toolUse := a, toolResults := [] } rest).1.cons i,
      (interSeq { toolUse := a, toolResults := [] } rest).2)

theorem afterUsers_cons_assistant (a : AssistantMessage) (l : List TurnMessage) :
    afterUsers (.assistant a :: l) = .assistant a :: l := rfl

theorem afterUsers_cons_user (u : UserMessage) (l : List TurnMessage) :
    afterUsers (.user u :: l) = afterUsers l := rfl

theorem leadingResults_cons_assistant (a : AssistantMessage) (l : List TurnMessage) :
    leadingResults (.assistant a :: l) = [] := rfl

theorem leadingResults_cons_user (u : UserMessage) (l : List TurnMessage) :
    leadingResults (.user u :: l) = extractToolResults u ++ leadingResults l := rfl

theorem groupInter_nil : groupInter [] = [] := by
  rw [groupInter]

theorem groupInter_cons_user (u : UserMessage) (l : List TurnMessage) :
    groupInter (.user u :: l) = groupInter l := by
  rw [groupInter]

theorem groupInter_cons_assistant (a : AssistantMessage) (l : List TurnMessage) :
    groupInter (.assistant a :: l) =
      { toolUse := a, toolResults := leadingResults l } :: groupInter (afterUsers l) := by
  rw [groupInter]

theorem foldl_toolRun (t : Nat) (run : List TurnMessage)
    (hrun : ∀ m ∈ run, toolRunElem m = true) :
    ∀ (st : PartState) (tp : ToolPage) (i : ToolInteraction),
      st.curToolPage = some tp → st.curInteraction = some i →
      run.foldl (processMessage t) st =
        { st with
          curToolPage :=
            some ({ tp with interactions := tp.interactions ++ (interSeq i run).1 })
          curInteraction := some (interSeq i run).2 } := by
  induction run with
  | nil =>
    intro st tp i hc hi
    obtain ⟨pages, pageIndex, curTool, curInter⟩ := st
    simp only [PartState.mk.injEq] at hc hi ⊢
    simp [interSeq, hc, hi]
  | cons m rest ih =>
    intro st tp i hc hi
    have hm := hrun m (by simp)
    have hrest : ∀ m ∈ rest, toolRunElem m = true := fun m hm' => hrun m (by simp [hm'])
    cases m with
    | user u =>
      have hp : ¬((jsTrim (extractUserText u)).length > 0) := by
        have h0 : (jsTrim (extractUserText u)).length = 0 := by
          simpa [toolRunElem] using hm
        omega
      have hstep : processMessage t st (.user u) =
          { st with
            curInteraction :=
              some ({ i with toolResults := i.toolResults ++ extractToolResults u }) } := by
        simp [processMessage, hp, hi]
      simp only [List.foldl_cons, hstep]
      rw [ih hrest _ tp
        ({ i with toolResults := i.toolResults ++ extractToolResults u })
        (by simp [hc]) rfl]
      simp [interSeq]
    | assistant a =>
      have ha' : assistantStartsWithText a = false := by
        simpa [toolRunElem] using hm
      have hstep : processMessage t st (.assistant a) =
          { st with
            curToolPage := some ({ tp with interactions := tp.interactions ++ [i] })
            curInteraction := some { toolUse := a, toolResults := [] } } := by
        simp [processMessage, ha', hi, hc]
      simp only [List.foldl_cons, hstep]
      rw [ih hrest _ ({ tp with interactions := tp.interactions ++ [i] })
        ({ toolUse := a, toolResults := [] }) rfl rfl]
      simp [interSeq]

theorem interSeq_append_last (run : List TurnMessage) (i : ToolInteraction) :
    (interSeq i run).1 ++ [(interSeq i run).2] =
      { toolUse := i.toolUse, toolResults := i.toolResults ++ leadingResults run } ::
        groupInter (afterUsers run) := by
  induction run generalizing i with
  | nil =>
    simp [interSeq, leadingResults, afterUsers, groupInter]
  | cons m rest ih =>
    cases m with
    | user u =>
      simp only [interSeq, leadingResults_cons_user, afterUsers_cons_user]
      rw [ih]
      simp [List.append_assoc]
    | assistant a =>
      simp only [interSeq, leadingResults_cons_assistant, afterUsers_cons_assistant,
        List.cons_append, List.cons.injEq]
      rw [groupInter_cons_assistant]
      refine ⟨?_, ?_⟩
      · simp
      · simpa using ih { toolUse := a, toolResults := [] }

theorem filterMap_afterUsers (l : List TurnMessage) :
    (afterUsers l).filterMap
        (fun m => match m with | .assistant a => some a | .user _ => none) =
      l.filterMap (fun m => match m with | .assistant a => some a | .user _ => none) := by
  induction l with
  | nil => rfl
  | cons m rest ih =>
    cases m with
    | user u =>
      rw [afterUsers_cons_user, ih]
      simp [List.filterMap_cons]
    | assistant a => rw [afterUsers_cons_assistant]

theorem groupInter_toolUses (run : List TurnMessage) :
    (groupInter run).map ToolInteraction.toolUse =
      run.filterMap (fun m => match m with | .assistant a => some a | .user _ => none) := by
  have H : ∀ (n : Nat) (l : List TurnMessage), l.length ≤ n →
      (groupInter l).map ToolInteraction.toolUse =
        l.filterMap (fun m => match m with | .assistant a => some a | .user _ => none) := by
    intro n
    induction n with
    | zero =>
      intro l hl
      have : l = [] := List.eq_nil_of_length_eq_zero (Nat.le_zero.1 hl)
      subst this
      simp [groupInter_nil]
    | succ n ihn =>
      intro l hl
      cases l with
      | nil => simp [groupInter_nil]
      | cons m rest =>
        have hrest : rest.length ≤ n := by
          simpa using Nat.le_of_succ_le_succ (by simpa using hl)
        cases m with
        | user u =>
          rw [groupInter_cons_user, ihn rest hrest]
          simp [List.filterMap_cons]
        | assistant a =>
          rw [groupInter_cons_assistant]
          simp only [List.map_cons, List.filterMap_cons]
          rw [ihn (afterUsers rest) (le_trans (afterUsers_length_le rest) hrest),
            filterMap_afterUsers]
  exact H run.length run le_rfl

theorem closer_step (t : Nat) {st : PartState} {tp : ToolPage} {i : ToolInteraction}
    (hc : st.curToolPage = some tp) (hi : st.curInteraction = some i)
    (closer : TurnMessage) (hcloser : isCloser closer = true) :
    processMessage t st closer =
      { pages := st.pages ++
          [.tool ({ tp with interactions := tp.interactions ++ [i] }),
            closerPage t st.pageIndex closer]
        pageIndex := st.pageIndex + 1
        curToolPage := none
        curInteraction := none } := by
  have hflush : flushToolPage st =
      { st with
        pages := st.pages ++ [.tool ({ tp with interactions := tp.interactions ++ [i] })]
        curToolPage := none
        curInteraction := none } := by
    simp [flushToolPage, hc, hi]
  cases closer with
  | user u =>
    have hp : (jsTrim (extractUserText u)).length > 0 := by
      simpa [isCloser] using hcloser
    have hstep : processMessage t st (.user u) =
        { flushToolPage st with
          pages := (flushToolPage st).pages ++
            [.user { turnIndex := t, pageIndex := (flushToolPage st).pageIndex, user := u }]
          pageIndex := (flushToolPage st).pageIndex + 1 } := by
      simp [processMessage, hp]
    rw [hstep, hflush]
    simp [closerPage]
  | assistant a =>
    have ha : assistantStartsWithText a = true := by
      simpa [isCloser] using hcloser
    have hstep : processMessage t st (.assistant a) =
        { flushToolPage st with
          pages := (flushToolPage st).pages ++
            [.text { turnIndex := t, pageIndex := (flushToolPage st).pageIndex, assistant := a }]
          pageIndex := (flushToolPage st).pageIndex + 1 } := by
      simp [processMessage, ha]
    rw [hstep, hflush]
    simp [closerPage]

theorem toolRun_closer_foldl (t : Nat) :
    ∀ (run : List TurnMessage) (st : PartState),
      st.curToolPage = none → st.curInteraction = none →
      (∀ m ∈ run, toolRunElem m = true) → 1 ≤ countAssistants run →
      ∀ closer, isCloser closer = true →
      (run ++ [closer]).foldl (processMessage t) st =
        { pages := st.pages ++
            [Page.tool ⟨t, st.pageIndex, groupInter run⟩,
              closerPage t (st.pageIndex + 1) closer]
          pageIndex := st.pageIndex + 2
          curToolPage := none
          curInteraction := none } := by
  intro run
  induction run with
  | nil =>
    intro st hct hci hrun hcount closer hcloser
    simp [countAssistants] at hcount
  | cons m rest ih =>
    intro st hct hci hrun hcount closer hcloser
    have hrest : ∀ m ∈ rest, toolRunElem m = true := fun m hm' => hrun m (by simp [hm'])
    cases m with
    | user u =>
      have hp : ¬((jsTrim (extractUserText u)).length > 0) := by
        have h0 : (jsTrim (extractUserText u)).length = 0 := by
          simpa [toolRunElem] using hrun (.user u) (by simp)
        omega
      have hstep : processMessage t st (.user u) = st := by
        simp [processMessage, hp, hci]
      have hcount' : 1 ≤ countAssistants rest := by
        simpa [countAssistants, List.countP_cons] using hcount
      rw [List.cons_append, List.foldl_cons, hstep, groupInter_cons_user]
      exact ih st hct hci hrest hcount' closer hcloser
    | assistant a =>
      have ha' : assistantStartsWithText a = false := by
        simpa [toolRunElem] using hrun (.assistant a) (by simp)
      have hstep : processMessage t st (.assistant a) =
          { st with
            curToolPage :=
              some { turnIndex := t, pageIndex := st.pageIndex, interactions := [] }
            pageIndex := st.pageIndex + 1
            curInteraction := some { toolUse := a, toolResults := [] } } := by
        simp [processMessage, ha', hci, hct]
      rw [List.cons_append, List.foldl_cons, hstep, List.foldl_append]
      rw [foldl_toolRun t rest hrest _
        { turnIndex := t, pageIndex := st.pageIndex, interactions := [] }
        { toolUse := a, toolResults := [] } rfl rfl]
      simp only [List.foldl_cons, List.foldl_nil]
      rw [closer_step t rfl rfl closer hcloser]
      rw [groupInter_cons_assistant]
      simp [interSeq_append_last]

/-- C3: two or more consecutive tool-starting assistant records — with
only tool-result-carrier user records and no text-starting assistant or
text-bearing user record in between — entering a state with no open tool
page are grouped into a single ToolPage holding exactly one
ToolInteraction per assistant record, in input order; the closing
text-starting assistant or text-bearing user record flushes that tool
page into the output BEFORE its own page is emitted. -/
theorem C3_tool_page_grouping (t : Nat) (st : PartState)
    (run : List TurnMessage) (closer : TurnMessage)
    (hclean_tool : st.curToolPage = none) (hclean_inter : st.curInteraction = none)
    (hrun : ∀ m ∈ run, toolRunElem m = true)
    (hcount : 2 ≤ countAssistants run)
    (hcloser : isCloser closer = true) :
    ((run ++ [closer]).foldl (processMessage t) st =
      { pages := st.pages ++
          [Page.tool ⟨t, st.pageIndex, groupInter run⟩,
            closerPage t (st.pageIndex + 1) closer]
        pageIndex := st.pageIndex + 2
        curToolPage := none
        curInteraction := none }) ∧
    (groupInter run).map ToolInteraction.toolUse =
      run.filterMap (fun m => match m with | .assistant a => some a | .user _ => none) :=
  ⟨toolRun_closer_foldl t run st hclean_tool hclean_inter hrun
      (le_trans (by omega) hcount) closer hcloser,
    groupInter_toolUses run⟩

def runEx : List TurnMessage :=
  [.assistant (asstTool "a2" "t1"), .user userToolResultOnly,
    .assistant (asstTool "a3" "t2")]

def initPartState : PartState :=
  { pages := [], pageIndex := 1, curToolPage := none, curInteraction := none }

theorem C3_witness :
    ((runEx ++ [TurnMessage.assistant asstText]).foldl (processMessage 1) initPartState =
      { pages := initPartState.pages ++
          [Page.tool ⟨1, initPartState.pageIndex, groupInter runEx⟩,
            closerPage 1 (initPartState.pageIndex + 1) (TurnMessage.assistant asstText)]
        pageIndex := initPartState.pageIndex + 2
        curToolPage := none
        curInteraction := none }) ∧
    (groupInter runEx).map ToolInteraction.toolUse =
      runEx.filterMap (fun m => match m with | .assistant a => some a | .user _ => none) :=
  C3_tool_page_grouping 1 initPartState runEx (.assistant asstText) rfl rfl
    (by decide) (by decide) (by decide)

/-! ## Digit facts about `Nat.repr`, for filename disjointness -/

theorem digitChar_isDigit {n : Nat} (h : n < 10) : (Nat.digitChar n).isDigit = true := by
  interval_cases n <;> decide

theorem digitChar_val {n : Nat} (h : n < 10) : (Nat.digitChar n).toNat - 48 = n := by
  interval_cases n <;> decide

theorem toDigitsCore_digits : ∀ (fuel n : Nat) (ds : List Char),
    (∀ c ∈ ds, c.isDigit = true) →
    ∀ c ∈ Nat.toDigitsCore 10 fuel n ds, c.isDigit = true := by
  intro fuel
  induction fuel with
  | zero =>
    intro n ds hds c hc
    rw [Nat.toDigitsCore] at hc
    exact hds c hc
  | succ fuel ih =>
    intro n ds hds c hc
    have hd : (Nat.digitChar (n % 10)).isDigit = true :=
      digitChar_isDigit (Nat.mod_lt n (by omega))
    have hcons : ∀ c ∈ Nat.digitChar (n % 10) :: ds, c.isDigit = true := by
      intro c hc'
      rcases List.mem_cons.1 hc' with h' | h'
      · rw [h']; exact hd
      · exact hds c h'
    rw [Nat.toDigitsCore] at hc
    by_cases h0 : n / 10 = 0
    · simp only [h0, if_pos] at hc
      exact hcons c hc
    · simp only [h0, if_neg, if_false] at hc
      exact ih (n / 10) (Nat.digitChar (n % 10) :: ds) hcons c hc

theorem repr_data_digits (n : Nat) : ∀ c ∈ (Nat.repr n).data, c.isDigit = true := by
  intro c hc
  have hdata : (Nat.repr n).data = Nat.toDigits 10 n := rfl
  rw [hdata, Nat.toDigits] at hc
  exact toDigitsCore_digits (n + 1) n [] (by simp) c hc

theorem toDigitsCore_acc : ∀ (fuel n : Nat) (ds : List Char),
    Nat.toDigitsCore 10 fuel n ds = Nat.toDigitsCore 10 fuel n [] ++ ds := by
  intro fuel
  induction fuel with
  | zero => intro n ds; rw [Nat.toDigitsCore, Nat.toDigitsCore]; simp
  | succ fuel ih =>
    intro n ds
    rw [Nat.toDigitsCore, Nat.toDigitsCore]
    by_cases h0 : n / 10 = 0
    · simp [h0]
    · simp only [h0, if_neg, if_false]
      rw [ih (n / 10) (Nat.digitChar (n % 10) :: ds),
        ih (n / 10) [Nat.digitChar (n % 10)]]
      simp

theorem toDigitsCore_fuel (n : Nat) : ∀ fuel, n < fuel →
    Nat.toDigitsCore 10 fuel n [] = Nat.toDigitsCore 10 (n + 1) n [] := by
  induction n using Nat.strong_induction_on with
  | _ n ih =>
    intro fuel hf
    rcases fuel with - | fuel
    · omega
    rw [Nat.toDigitsCore]
    conv_rhs => rw [Nat.toDigitsCore]
    by_cases h0 : n / 10 = 0
    · simp [h0]
    · simp only [h0, if_neg, if_false]
      have hne : n ≠ 0 := by
        intro h
        subst h
        simp at h0
      have hlt : n / 10 < n := Nat.div_lt_self (Nat.pos_of_ne_zero hne) (by omega)
      rw [toDigitsCore_acc fuel (n / 10) [Nat.digitChar (n % 10)],
        toDigitsCore_acc n (n / 10) [Nat.digitChar (n % 10)]]
      rw [ih (n / 10) hlt fuel (by omega), ih (n / 10) hlt n (by omega)]

def digitsVal (l : List Char) : Nat :=
  l.foldl (fun a c => a * 10 + (c.toNat - 48)) 0

theorem digitsVal_toDigits (n : Nat) : digitsVal (Nat.toDigits 10 n) = n := by
  induction n using Nat.strong_induction_on with
  | _ n ih =>
    rw [Nat.toDigits, Nat.toDigitsCore]
    by_cases h0 : n / 10 = 0
    · simp only [h0, if_pos]
      have hn : n < 10 := by
        rcases Nat.lt_or_ge n 10 with h | h
        · exact h
        · exfalso
          have : n / 10 ≥ 1 := Nat.le_div_iff_mul_le (by omega) |>.2 (by omega)
          omega
      have hmod : n % 10 = n := Nat.mod_eq_of_lt hn
      have hdc := digitChar_val hn
      simp [digitsVal, hmod, hdc]
    · simp only [h0, if_neg, if_false]
      have hne : n ≠ 0 := by
        intro h
        subst h
        simp at h0
      have hlt : n / 10 < n := Nat.div_lt_self (Nat.pos_of_ne_zero hne) (by omega)
      rw [toDigitsCore_acc n (n / 10) [Nat.digitChar (n % 10)]]
      rw [toDigitsCore_fuel (n / 10) n hlt]
      have hrec : Nat.toDigitsCore 10 (n / 10 + 1) (n / 10) [] = Nat.toDigits 10 (n / 10) := rfl
      rw [hrec]
      have happ : digitsVal (Nat.toDigits 10 (n / 10) ++ [Nat.digitChar (n % 10)]) =
          digitsVal (Nat.toDigits 10 (n / 10)) * 10 + ((Nat.digitChar (n % 10)).toNat - 48) := by
        simp [digitsVal, List.foldl_append]
      rw [happ, ih (n / 10) hlt, digitChar_val (Nat.mod_lt n (show 0 < 10 by omega))]
      omega

theorem repr_injective {m n : Nat} (h : Nat.repr m = Nat.repr n) : m = n := by
  have hdata : Nat.toDigits 10 m = Nat.toDigits 10 n := by
    have : (Nat.repr m).data = (Nat.repr n).data := by rw [h]
    exact this
  have := congrArg digitsVal hdata
  rwa [digitsVal_toDigits, digitsVal_toDigits] at this

theorem digits_append_cancel : ∀ (xs ys : List Char) (a b : Char) (as bs : List Char),
    (∀ c ∈ xs, c.isDigit = true) → (∀ c ∈ ys, c.isDigit = true) →
    a.isDigit = false → b.isDigit = false →
    xs ++ a :: as = ys ++ b :: bs → xs = ys ∧ a :: as = b :: bs := by
  intro xs
  induction xs with
  | nil =>
    intro ys a b as bs hxs hys ha hb heq
    cases ys with
    | nil => exact ⟨rfl, by simpa using heq⟩
    | cons y ys' =>
      simp only [List.nil_append, List.cons_append, List.cons.injEq] at heq
      have hy : y.isDigit = true := hys y (by simp)
      rw [← heq.1] at hy
      rw [hy] at ha
      simp at ha
  | cons x xs' ih =>
    intro ys a b as bs hxs hys ha hb heq
    cases ys with
    | nil =>
      simp only [List.cons_append, List.nil_append, List.cons.injEq] at heq
      have hx : x.isDigit = true := hxs x (by simp)
      rw [heq.1] at hx
      rw [hx] at hb
      simp at hb
    | cons y ys' =>
      simp only [List.cons_append, List.cons.injEq] at heq
      obtain ⟨hxy, heq'⟩ := heq
      obtain ⟨h1, h2⟩ := ih ys' a b as bs
        (fun c hc => hxs c (by simp [hc]))
        (fun c hc => hys c (by simp [hc])) ha hb heq'
      exact ⟨by rw [hxy, h1], h2⟩

theorem string_data_eq {s t : String} (h : s.data = t.data) : s = t := by
  cases s
  cases t
  exact congrArg String.mk h

theorem filename_user_user {i j : Nat}
    (h : ("turn_" ++ Nat.repr i ++ "_user.md" : String) =
      "turn_" ++ Nat.repr j ++ "_user.md") : i = j := by
  have hd := congrArg String.data h
  simp only [String.data_append, List.append_assoc] at hd
  have hd2 := List.append_inj_right hd rfl
  obtain ⟨h1, -⟩ := digits_append_cancel _ _ _ _ _ _
    (repr_data_digits i) (repr_data_digits j) (by decide) (by decide) hd2
  exact repr_injective (string_data_eq h1)

theorem filename_text_ne_user (j k i : Nat) :
    ("turn_" ++ Nat.repr j ++ "_text_" ++ Nat.repr k ++ ".md" : String) ≠
      "turn_" ++ Nat.repr i ++ "_user.md" := by
  intro h
  have hd := congrArg String.data h
  simp only [String.data_append, List.append_assoc] at hd
  have hd2 := List.append_inj_right hd rfl
  simp only [List.cons_append, List.nil_append] at hd2
  obtain ⟨-, h4⟩ := digits_append_cancel _ _ _ _ _ _
    (repr_data_digits j) (repr_data_digits i) (by decide) (by decide) hd2
  simp at h4

theorem filename_tool_ne_user (j k i : Nat) :
    ("turn_" ++ Nat.repr j ++ "_tool_" ++ Nat.repr k ++ ".md" : String) ≠
      "turn_" ++ Nat.repr i ++ "_user.md" := by
  intro h
  have hd := congrArg String.data h
  simp only [String.data_append, List.append_assoc] at hd
  have hd2 := List.append_inj_right hd rfl
  simp only [List.cons_append, List.nil_append] at hd2
  obtain ⟨-, h4⟩ := digits_append_cancel _ _ _ _ _ _
    (repr_data_digits j) (repr_data_digits i) (by decide) (by decide) hd2
  simp at h4

/-- A page sharing a user page's filename is itself a user page of the
same turn index. -/
theorem getPageFilename_eq_user_page {p : Page} {q : UserPage}
    (h : getPageFilename p = getPageFilename (.user q)) :
    isUserPage p = true ∧ pageTurnIdx p = q.turnIndex := by
  cases p with
  | user r =>
    refine ⟨rfl, ?_⟩
    exact filename_user_user (by simpa [getPageFilename] using h)
  | text r =>
    exact absurd (by simpa [getPageFilename] using h)
      (filename_text_ne_user r.turnIndex r.pageIndex q.turnIndex)
  | tool r =>
    exact absurd (by simpa [getPageFilename] using h)
      (filename_tool_ne_user r.turnIndex r.pageIndex q.turnIndex)

/-! ## User pages within a turn -/

theorem firstTextOfBlocks_notext (bs : List ContentBlock)
    (h : ∀ t, ContentBlock.text t ∈ bs → (jsTrim t).length = 0) :
    (jsTrim (firstTextOfBlocks bs)).length = 0 := by
  induction bs with
  | nil => rfl
  | cons b rest ih =>
    cases b with
    | text t =>
      show (jsTrim t).length = 0
      exact h t (by simp)
    | thinking t =>
      show (jsTrim (firstTextOfBlocks rest)).length = 0
      exact ih fun t ht => h t (by simp [ht])
    | toolUse tb =>
      show (jsTrim (firstTextOfBlocks rest)).length = 0
      exact ih fun t ht => h t (by simp [ht])
    | toolResult tr =>
      show (jsTrim (firstTextOfBlocks rest)).length = 0
      exact ih fun t ht => h t (by simp [ht])

theorem notext_extract {u : UserMessage} (h : userMessageHasText u = false) :
    (jsTrim (extractUserText u)).length = 0 := by
  cases hc : u.content with
  | str s =>
    simp only [userMessageHasText, hc] at h
    simp only [extractUserText, hc]
    simpa using h
  | blocks bs =>
    simp only [userMessageHasText, hc, List.any_eq_false] at h
    simp only [extractUserText, hc]
    apply firstTextOfBlocks_notext
    intro t ht
    have := h (.text t) ht
    simpa using this

theorem flushToolPage_pages (st : PartState) :
    ∃ suffix, (flushToolPage st).pages = st.pages ++ suffix ∧
      ∀ p ∈ suffix, isUserPage p = false := by
  rcases hci : st.curInteraction with - | i <;> rcases hct : st.curToolPage with - | tp
  · exact ⟨[], by simp [flushToolPage, hci, hct], by simp⟩
  · by_cases hlen : tp.interactions.length > 0
    · exact ⟨[.tool tp], by simp [flushToolPage, hci, hct, hlen], by simp [isUserPage]⟩
    · exact ⟨[], by simp [flushToolPage, hci, hct, hlen], by simp⟩
  · exact ⟨[], by simp [flushToolPage, hci, hct], by simp⟩
  · exact ⟨[.tool ({ tp with interactions := tp.interactions ++ [i] })],
      by simp [flushToolPage, hci, hct], by simp [isUserPage]⟩

theorem processMessage_pages_nonuser (t : Nat) (st : PartState) (m : TurnMessage)
    (hm : userTextMsg m = false) :
    ∃ suffix, (processMessage t st m).pages = st.pages ++ suffix ∧
      ∀ p ∈ suffix, isUserPage p = false := by
  cases m with
  | user u =>
    have hp : ¬((jsTrim (extractUserText u)).length > 0) := by
      simpa [userTextMsg] using hm
    rcases hci : st.curInteraction with - | i
    · exact ⟨[], by simp [processMessage, hp, hci], by simp⟩
    · exact ⟨[], by simp [processMessage, hp, hci], by simp⟩
  | assistant a =>
    by_cases ha : assistantStartsWithText a = true
    · obtain ⟨suffix, hs, hall⟩ := flushToolPage_pages st
      refine ⟨suffix ++
        [.text { turnIndex := t, pageIndex := (flushToolPage st).pageIndex, assistant := a }],
        ?_, ?_⟩
      · have hstep : processMessage t st (.assistant a) =
            { flushToolPage st with
              pages := (flushToolPage st).pages ++
                [.text ⟨t, (flushToolPage st).pageIndex, a⟩]
              pageIndex := (flushToolPage st).pageIndex + 1 } := by
          simp [processMessage, ha]
        rw [hstep]
        simp [hs]
      · intro p hp'
        rcases List.mem_append.1 hp' with h' | h'
        · exact hall p h'
        · simp at h'
          subst h'
          rfl
    · have ha' : assistantStartsWithText a = false := by simpa using ha
      refine ⟨[], ?_, by simp⟩
      rcases hci : st.curInteraction with - | i <;> rcases hct : st.curToolPage with - | tp
      · simp [processMessage, ha', hci, hct]
      · simp [processMessage, ha', hci, hct]
      · simp [processMessage, ha', hci, hct]
      · simp [processMessage, ha', hci, hct]

theorem foldl_pages_nonuser (t : Nat) (l : List TurnMessage)
    (hl : ∀ m ∈ l, userTextMsg m = false) :
    ∀ st : PartState,
      ∃ suffix, (l.foldl (processMessage t) st).pages = st.pages ++ suffix ∧
        ∀ p ∈ suffix, isUserPage p = false := by
  induction l with
  | nil => intro st; exact ⟨[], by simp, by simp⟩
  | cons m rest ih =>
    intro st
    obtain ⟨s1, hs1, ha1⟩ := processMessage_pages_nonuser t st m (hl m (by simp))
    obtain ⟨s2, hs2, ha2⟩ := ih (fun m hm => hl m (by simp [hm])) (processMessage t st m)
    refine ⟨s1 ++ s2, ?_, ?_⟩
    · simp only [List.foldl_cons, hs2, hs1, List.append_assoc]
    · intro p hp
      rcases List.mem_append.1 hp with h' | h'
      · exact ha1 p h'
      · exact ha2 p h'

/-- For every well-formed turn, the partitioner emits at most one user
page; when it does, that page carries `pageIndex` 1, holds the turn's
first message, and opens the page list. -/
theorem convertTurn_user_pages {turn : ConversationTurn} (hg : goodTurn turn) :
    (convertTurn turn).pages.filter isUserPage = [] ∨
    ∃ u, (convertTurn turn).pages.filter isUserPage =
        [Page.user { turnIndex := turn.index, pageIndex := 1, user := u }] ∧
      (convertTurn turn).pages.head? =
        some (Page.user { turnIndex := turn.index, pageIndex := 1, user := u }) := by
  obtain ⟨u, rest, hmsg, hu, hrest⟩ := hg
  have hresttext : ∀ m ∈ rest, userTextMsg m = false := by
    intro m hm
    cases m with
    | user u' =>
      have h0 := notext_extract (hrest u' hm)
      simp [userTextMsg, h0]
    | assistant a => rfl
  have hpages : (convertTurn turn).pages =
      (flushToolPage (turn.messages.foldl (processMessage turn.index)
        { pages := [], pageIndex := 1, curToolPage := none, curInteraction := none })).pages := rfl
  by_cases hp : (jsTrim (extractUserText u)).length > 0
  · right
    have hstep1 : processMessage turn.index
        { pages := [], pageIndex := 1, curToolPage := none, curInteraction := none }
        (.user u) =
        { pages := [Page.user { turnIndex := turn.index, pageIndex := 1, user := u }],
          pageIndex := 2, curToolPage := none, curInteraction := none } := by
      simp [processMessage, hp, flushToolPage]
    obtain ⟨s2, hs2, ha2⟩ := foldl_pages_nonuser turn.index rest hresttext
      { pages := [Page.user { turnIndex := turn.index, pageIndex := 1, user := u }],
        pageIndex := 2, curToolPage := none, curInteraction := none }
    obtain ⟨s3, hs3, ha3⟩ := flushToolPage_pages
      (rest.foldl (processMessage turn.index)
        { pages := [Page.user { turnIndex := turn.index, pageIndex := 1, user := u }],
          pageIndex := 2, curToolPage := none, curInteraction := none })
    have hfinal : (convertTurn turn).pages =
        Page.user { turnIndex := turn.index, pageIndex := 1, user := u } :: (s2 ++ s3) := by
      rw [hpages, hmsg, List.foldl_cons, hstep1, hs3, hs2]
      simp
    have hfs : (s2 ++ s3).filter isUserPage = [] := by
      rw [List.filter_eq_nil_iff]
      intro p hp'
      rcases List.mem_append.1 hp' with h' | h'
      · simp [ha2 p h']
      · simp [ha3 p h']
    refine ⟨u, ?_, ?_⟩
    · rw [hfinal]
      simp [List.filter_cons, isUserPage, hfs]
    · rw [hfinal]
      rfl
  · left
    have hutext : userTextMsg (.user u) = false := by
      simp [userTextMsg, hp]
    have halltext : ∀ m ∈ turn.messages, userTextMsg m = false := by
      rw [hmsg]
      intro m hm
      rcases List.mem_cons.1 hm with h' | h'
      · rw [h']; exact hutext
      · exact hresttext m h'
    obtain ⟨s2, hs2, ha2⟩ := foldl_pages_nonuser turn.index turn.messages halltext
      { pages := [], pageIndex := 1, curToolPage := none, curInteraction := none }
    obtain ⟨s3, hs3, ha3⟩ := flushToolPage_pages
      (turn.messages.foldl (processMessage turn.index)
        { pages := [], pageIndex := 1, curToolPage := none, curInteraction := none })
    have hfinal : (convertTurn turn).pages = s2 ++ s3 := by
      rw [hpages, hs3, hs2]
      simp
    rw [hfinal, List.filter_eq_nil_iff]
    intro p hp'
    rcases List.mem_append.1 hp' with h' | h'
    · simp [ha2 p h']
    · simp [ha3 p h']

/-! ## Claim C10 -/

/-- C10: every turn of the full pipeline output has at most one user
page; when a user page exists it opens the turn's page list with
`pageIndex` 1, and its derived filename (which omits the page index) is
borne by exactly one page across the WHOLE output. -/
theorem C10_user_page_unique_filename (entries : List SessionEntry) :
    ∀ tp ∈ convertTurnsToPages (extractConversationTurns entries),
      (tp.pages.filter isUserPage).length ≤ 1 ∧
      ∀ p ∈ tp.pages, isUserPage p = true →
        tp.pages.head? = some p ∧ pageIdx p = 1 ∧
        ((convertTurnsToPages (extractConversationTurns entries)).map
            TurnPages.pages).flatten.countP
          (fun q => getPageFilename q = getPageFilename p) = 1 := by
  obtain ⟨hidx, hgood⟩ := extractConversationTurns_good entries
  intro tp htp
  obtain ⟨turn, hturnmem, htpe⟩ := List.mem_map.1 htp
  rcases convertTurn_user_pages (hgood turn hturnmem) with hnone | ⟨u, hfilter, hhead⟩
  · constructor
    · rw [← htpe, hnone]
      simp
    · intro p hpmem hpuser
      exfalso
      have : p ∈ (convertTurn turn).pages.filter isUserPage :=
        List.mem_filter.2 ⟨by rwa [← htpe] at hpmem, hpuser⟩
      rw [hnone] at this
      simp at this
  · -- the turn's page list is the user page followed by non-user pages
    rcases hpg : (convertTurn turn).pages with - | ⟨p0, tail⟩
    · rw [hpg] at hhead
      simp at hhead
    · have hp0 : p0 = Page.user { turnIndex := turn.index, pageIndex := 1, user := u } := by
        rw [hpg] at hhead
        simpa using hhead
      subst hp0
      have htail : ∀ q ∈ tail, isUserPage q = false := by
        rw [hpg] at hfilter
        rw [List.filter_cons] at hfilter
        simp only [isUserPage, if_pos] at hfilter
        have : tail.filter isUserPage = [] := by
          simpa using hfilter
        intro q hq
        have := List.filter_eq_nil_iff.1 this q hq
        simpa using this
      constructor
      · rw [← htpe, hpg, List.filter_cons]
        simp only [isUserPage, if_pos]
        have : tail.filter isUserPage = [] := by
          rw [List.filter_eq_nil_iff]
          intro q hq
          simp [htail q hq]
        simp [this]
      · intro p hpmem hpuser
        have hpeq : p = Page.user { turnIndex := turn.index, pageIndex := 1, user := u } := by
          rw [← htpe, hpg] at hpmem
          rcases List.mem_cons.1 hpmem with h' | h'
          · exact h'
          · exact absurd hpuser (by simp [htail p h'])
        subst hpeq
        refine ⟨by rw [← htpe, hpg]; rfl, rfl, ?_⟩
        -- global filename count
        obtain ⟨l1, l2, hsplit⟩ := List.append_of_mem hturnmem
        have hnodup : ((extractConversationTurns entries).map ConversationTurn.index).Nodup := by
          rw [hidx]
          exact List.nodup_range' _ _
        rw [hsplit] at hnodup
        rw [List.map_append, List.map_cons] at hnodup
        rw [List.nodup_append] at hnodup
        obtain ⟨-, hn2, hdisj⟩ := hnodup
        have hnotl1 : turn.index ∉ l1.map ConversationTurn.index := by
          intro hmem
          exact hdisj hmem (by simp)
        have hnotl2 : turn.index ∉ l2.map ConversationTurn.index := by
          have := List.nodup_cons.1 hn2
          exact this.1
        have hzero : ∀ t' ∈ l1 ++ l2, ((convertTurn t').pages.countP
            (fun q => getPageFilename q =
              getPageFilename (Page.user { turnIndex := turn.index, pageIndex := 1, user := u }))) = 0 := by
          intro t' ht'
          rw [List.countP_eq_zero]
          intro q hq hpred
          have hturnq : pageTurnIdx q = t'.index :=
            (convertTurn_pages_spec t').2 q hq
          have hfq := getPageFilename_eq_user_page (by simpa using hpred)
          have : t'.index = turn.index := by
            rw [← hturnq, hfq.2]
          rcases List.mem_append.1 ht' with h' | h'
          · exact hnotl1 (by rw [← this]; exact List.mem_map_of_mem _ h')
          · exact hnotl2 (by rw [← this]; exact List.mem_map_of_mem _ h')
        have hself : ((convertTurn turn).pages.countP
            (fun q => getPageFilename q =
              getPageFilename (Page.user { turnIndex := turn.index, pageIndex := 1, user := u }))) = 1 := by
          rw [hpg, List.countP_cons]
          have htailzero : tail.countP
              (fun q => getPageFilename q =
                getPageFilename (Page.user { turnIndex := turn.index, pageIndex := 1, user := u })) = 0 := by
            rw [List.countP_eq_zero]
            intro q hq hpred
            have hfq := @getPageFilename_eq_user_page q _ (by simpa using hpred)
            rw [htail q hq] at hfq
            simp at hfq
          simp [htailzero]
        rw [convertTurnsToPages, hsplit]
        rw [List.map_append, List.map_cons, List.map_append, List.map_cons]
        rw [List.flatten_append, List.flatten_cons]
        rw [List.countP_append, List.countP_append]
        have hzl1 : ((l1.map (fun t => (convertTurn t).pages)).flatten.countP
            (fun q => getPageFilename q =
              getPageFilename (Page.user { turnIndex := turn.index, pageIndex := 1, user := u }))) = 0 := by
          rw [List.countP_eq_zero]
          intro q hq hpred
          obtain ⟨ps, hps, hqps⟩ := List.mem_flatten.1 hq
          obtain ⟨t', ht', hpse⟩ := List.mem_map.1 hps
          have := hzero t' (List.mem_append.2 (Or.inl ht'))
          rw [List.countP_eq_zero] at this
          exact this q (by rwa [hpse]) hpred
        have hzl2 : ((l2.map (fun t => (convertTurn t).pages)).flatten.countP
            (fun q => getPageFilename q =
              getPageFilename (Page.user { turnIndex := turn.index, pageIndex := 1, user := u }))) = 0 := by
          rw [List.countP_eq_zero]
          intro q hq hpred
          obtain ⟨ps, hps, hqps⟩ := List.mem_flatten.1 hq
          obtain ⟨t', ht', hpse⟩ := List.mem_map.1 hps
          have := hzero t' (List.mem_append.2 (Or.inr ht'))
          rw [List.countP_eq_zero] at this
          exact this q (by rwa [hpse]) hpred
        have hmm : ∀ ts : List ConversationTurn,
            (ts.map convertTurn).map TurnPages.pages =
              ts.map (fun t => (convertTurn t).pages) := by
          intro ts
          rw [List.map_map]
          rfl
        rw [hmm, hmm]
        rw [hzl1, hzl2, hself]

def turnDupTools : ConversationTurn :=
  { index := 1,
    messages := [.assistant (asstTool "a2" "t1"), .assistant (asstTool "a3" "t1")] }

theorem C9_witness :
    mapGet (buildToolUseMap [turnDupTools]) "t1" =
      ((allToolUses [turnDupTools]).filter fun tb => tb.id = "t1").getLast? :=
  (C9_tool_use_map [turnDupTools]).2.2 "t1"

theorem C10_witness :
    ((convertTurn turnEx).pages.filter isUserPage).length ≤ 1 ∧
    ((convertTurn turnEx).pages.head? =
        some (Page.user { turnIndex := 1, pageIndex := 1, user := userHello }) ∧
      pageIdx (Page.user { turnIndex := 1, pageIndex := 1, user := userHello }) = 1 ∧
      ((convertTurnsToPages (extractConversationTurns
          [SessionEntry.user userHello, SessionEntry.assistant asstText])).map
          TurnPages.pages).flatten.countP
        (fun q => getPageFilename q =
          getPageFilename (Page.user { turnIndex := 1, pageIndex := 1, user := userHello })) = 1) := by
  have hturns : extractConversationTurns
      [SessionEntry.user userHello, SessionEntry.assistant asstText] = [turnEx] := rfl
  have h := C10_user_page_unique_filename
    [SessionEntry.user userHello, SessionEntry.assistant asstText]
    (convertTurn turnEx)
    (by rw [hturns]; exact List.mem_map_of_mem convertTurn (by simp))
  have hpmem : Page.user { turnIndex := 1, pageIndex := 1, user := userHello } ∈
      (convertTurn turnEx).pages := by
    have hpg : (convertTurn turnEx).pages =
        [Page.user { turnIndex := 1, pageIndex := 1, user := userHello },
          Page.text { turnIndex := 1, pageIndex := 2, assistant := asstText }] := rfl
    rw [hpg]
    simp
  exact ⟨h.1, h.2 _ hpmem rfl⟩

end CCSess
